import Mathlib

/-!
# CueForge — verification of the cue state machine and list manager

Shallow embedding of the CueForge core (src/core/Cue.cpp, src/core/Cue.h,
src/core/CueManager.cpp).  Qt strings become `String`, `double` durations
become `ℚ` (the code performs only comparisons, max, `+ 1.0` and epsilon
tests on them, all exact on the values at issue), `QList<Cue*>` becomes a
`List` of cue values (pointer identity is cue-id identity; the manager's
`activeCues_` pointer cache becomes a list of ids), and Qt signals become an
explicit event list returned by each operation.
-/

namespace CueForge

/-- src/core/Cue.h `enum class CueStatus`. -/
inductive CueStatus where
  | Loaded
  | Playing
  | Paused
  | Stopped
  | Loading
  | Broken
  | Armed
deriving DecidableEq, Repr

/-- src/core/Cue.h `enum class CueType`. -/
inductive CueType where
  | Audio
  | Video
  | MIDI
  | Wait
  | Start
  | Stop
  | Goto
  | Fade
  | Group
  | Target
  | Load
  | Script
deriving DecidableEq, Repr

/-- The scalar fields of `class Cue` (src/core/Cue.h, private section).
`color_ : QColor` is modelled by its `#rrggbb` name string (the only use the
core makes of it is `color_.name()` / `QColor(string)`); timestamps are
modelled as opaque strings (`QDateTime::toString(Qt::ISODate)` images);
`customProperties_ : QVariantMap` is an association list with opaque string
values. -/
structure CueCore where
  id : String
  kind : CueType
  number : String
  name : String
  status : CueStatus
  armed : Bool
  flagged : Bool
  continueMode : Bool
  color : String
  notes : String
  duration : ℚ
  preWait : ℚ
  postWait : ℚ
  currentPosition : ℚ
  targetId : String
  createdTime : String
  modifiedTime : String
  lastExecutedTime : Option String
  customProperties : List (String × String)
  inPreWait : Bool
  inPostWait : Bool
deriving DecidableEq, Repr

/-- A cue together with its owned children (`GroupCue::children_`; empty for
every non-group cue).  Nested because groups own full cues. -/
inductive Cue where
  | mk (core : CueCore) (children : List Cue)

def Cue.core : Cue → CueCore
  | .mk c _ => c

def Cue.children : Cue → List Cue
  | .mk _ ch => ch

def Cue.id (c : Cue) : String := c.core.id

def Cue.number (c : Cue) : String := c.core.number

def Cue.status (c : Cue) : CueStatus := c.core.status

def Cue.kind (c : Cue) : CueType := c.core.kind

def Cue.continueMode (c : Cue) : Bool := c.core.continueMode

def Cue.withCore (c : Cue) (core : CueCore) : Cue := .mk core c.children

/-- src/core/Cue.h line 103:
`isExecuting() { return status_ == Playing || status_ == Loading; }`. -/
def Cue.isExecuting (c : Cue) : Bool :=
  c.status = CueStatus.Playing || c.status = CueStatus.Loading

/-- src/core/Cue.cpp `Cue::canExecute` (lines 263–266):
`return status_ == CueStatus::Loaded || status_ == CueStatus::Armed;`. -/
def Cue.canExecute (c : Cue) : Bool :=
  c.status = CueStatus.Loaded || c.status = CueStatus.Armed

/-- src/core/Cue.cpp `Cue::markModified`: `modifiedTime_ = currentDateTime()`;
the ambient clock is threaded as `now`. -/
def Cue.markModified (now : String) (c : Cue) : Cue :=
  c.withCore { c.core with modifiedTime := now }

/-- src/core/Cue.cpp `Cue::setStatus`: assigns and marks modified only when
the value differs (signals `statusChanged`/`cueUpdated` are cue-internal and
not part of the manager event model). -/
def Cue.setStatus (now : String) (status : CueStatus) (c : Cue) : Cue :=
  if c.status = status then c
  else (c.withCore { c.core with status := status }).markModified now

/-- Modelled from the spec: the type-specific execution hook `execute()` is
pure virtual in `Cue` and its concrete bodies (AudioCue.cpp, GroupCue.cpp) are
not in the sources; spec §4.1 — the hook "on entry sets status to `Playing`". -/
def Cue.execute (now : String) (c : Cue) : Cue :=
  c.setStatus now CueStatus.Playing

/-- src/core/Cue.cpp `Cue::executePreWait` (lines 467–479): if `preWait_ ≤ 0`
run `execute()`, else set `inPreWait_`, enter `Loading` and start the
(real-time, not modelled beyond the flag) pre-wait timer. -/
def Cue.executePreWait (now : String) (c : Cue) : Cue :=
  if c.core.preWait ≤ 0 then c.execute now
  else ((c.withCore { c.core with inPreWait := true }).setStatus now CueStatus.Loading)

/-- src/core/Cue.cpp `Cue::trigger` (lines 268–283): warn-and-return when
`!canExecute()`; otherwise emit `aboutToExecute` and run `executePreWait()`
when `preWait_ > 0`, else `execute()`. -/
def Cue.trigger (now : String) (c : Cue) : Cue :=
  if ¬ c.canExecute then c
  else if c.core.preWait > 0 then c.executePreWait now
  else c.execute now

/-- Modelled from the spec: `stop(fadeTime)` is pure virtual in `Cue` and the
concrete bodies (AudioCue.cpp, GroupCue.cpp) are not in the sources; spec
§4.1 — stop "must deterministically cancel any pending pre-wait/post-wait
delay and land the cue in `Stopped`".  The fade amount does not alter the
final state. -/
def Cue.stopFade (now : String) (_fadeTime : ℚ) (c : Cue) : Cue :=
  ((c.withCore { c.core with inPreWait := false, inPostWait := false }).setStatus
    now CueStatus.Stopped)

/-! ## The list manager's state and notification model -/

/-- The Qt signals that `CueManager` emits, in emission order. -/
inductive Event where
  | cueAdded (id : String) (index : Nat)
  | cueRemoved (id : String) (index : Nat)
  | cueCountChanged
  | selectionChanged
  | selectedCuesChanged (ids : List String)
  | playheadChanged
  | standByCueChanged (id : String)
  | playbackStateChanged
  | cueExecutionStarted (id : String)
  | allCuesStopped
  | cueMoved (id : String) (oldIndex : Int) (newIndex : Nat)
  | groupExpansionChanged (id : String) (expanded : Bool)
  | groupCreated (id : String)
  | groupRemoved (id : String)
  | workspaceChanged
  | workspaceModified (hasChanges : Bool)
deriving DecidableEq, Repr

/-- The state `CueManager` owns (src/core/CueManager.h, private data section).
`activeCues_ : QList<Cue*>` holds non-owning pointers; ids stand in for the
pointers (every cue id is a fresh UUID in the code).  `clipboard_ :
QJsonArray` is opaque to the claims and kept as a string list. -/
structure CueManager where
  cues : List Cue
  selectedCueIds : List String
  standByCueId : String
  hasUnsavedChanges : Bool
  isPaused : Bool
  activeCues : List String
  groupExpansionState : List (String × Bool)
  clipboard : List String

/-- src/core/CueManager.cpp `CueManager::getCue` (lines 196–206): the loop
over `cues_` returning the first cue with the given id, `nullptr` when none. -/
def findIn : List Cue → String → Option Cue
  | [], _ => none
  | c :: rest, cueId => if c.id = cueId then some c else findIn rest cueId

def CueManager.getCue (m : CueManager) (cueId : String) : Option Cue :=
  findIn m.cues cueId

/-- src/core/CueManager.cpp `CueManager::findCueIndex` (lines 221–229): the
indexed loop over `cues_`; `-1` for a missing id becomes `none`. -/
def findIdxIn : List Cue → String → Nat → Option Nat
  | [], _, _ => none
  | c :: rest, cueId, i => if c.id = cueId then some i else findIdxIn rest cueId (i + 1)

def CueManager.findCueIndex (m : CueManager) (cueId : String) : Option Nat :=
  findIdxIn m.cues cueId 0

/-- src/core/CueManager.cpp `CueManager::markWorkspaceModified`
(lines 929–936). -/
def CueManager.markWorkspaceModified (m : CueManager) : CueManager × List Event :=
  if ¬ m.hasUnsavedChanges then
    ({ m with hasUnsavedChanges := true },
      [Event.workspaceChanged, Event.workspaceModified true])
  else (m, [])

/-! ## Cue-number arithmetic (`getNextCueNumber`) -/

/-- Digit run: accumulated value, number of digits read, rest. (Contract model
of the digit scanning inside `QString::toDouble`.) -/
def scanDigits : List Char → ℕ → ℕ → ℕ × ℕ × List Char
  | [], acc, n => (acc, n, [])
  | ch :: rest, acc, n =>
    if ch.isDigit then scanDigits rest (acc * 10 + (ch.toNat - 48)) (n + 1)
    else (acc, n, ch :: rest)

def scanSign : List Char → ℤ × List Char
  | '-' :: rest => (-1, rest)
  | '+' :: rest => (1, rest)
  | rest => (1, rest)

/-- Contract model of `QString::toDouble(bool* ok)` (a Qt library call, not
repository code): parses an optional sign, a decimal mantissa with optional
fractional part, and an optional exponent; yields `none` (`ok = false`) on any
leftover input or an empty mantissa.  Exact rational arithmetic stands in for
the binary double; the cue numbers at issue ("1", "2", "4.5", …) are exact
either way. -/
def toDouble (s : String) : Option ℚ :=
  let (sgn, rest1) := scanSign s.toList
  let (ipart, icount, rest2) := scanDigits rest1 0 0
  let (fpart, fcount, rest3) :=
    match rest2 with
    | '.' :: r => scanDigits r 0 0
    | r => (0, 0, r)
  if icount + fcount = 0 then none
  else
    let mantissa : ℚ := (sgn : ℚ) * ((ipart : ℚ) + (fpart : ℚ) / (10 : ℚ) ^ fcount)
    match rest3 with
    | [] => some mantissa
    | 'e' :: r =>
      let (esgn, r2) := scanSign r
      let (e, ecount, r3) := scanDigits r2 0 0
      if ecount = 0 ∨ r3 ≠ [] then none
      else some (mantissa * (10 : ℚ) ^ (esgn * (e : ℤ)))
    | 'E' :: r =>
      let (esgn, r2) := scanSign r
      let (e, ecount, r3) := scanDigits r2 0 0
      if ecount = 0 ∨ r3 ≠ [] then none
      else some (mantissa * (10 : ℚ) ^ (esgn * (e : ℤ)))
    | _ => none

/-- Round to the nearest integer, ties to even: the rounding
`QString::number(x, 'f', 0)` performs (C `%.0f`). -/
def roundHalfEven (q : ℚ) : ℤ :=
  let f := ⌊q⌋
  let frac := q - (f : ℚ)
  if frac < 1 / 2 then f
  else if 1 / 2 < frac then f + 1
  else if f % 2 = 0 then f else f + 1

/-- Contract model of `QString::number(x, 'f', 0)`: the rounded integer,
printed in decimal. -/
def formatF0 (q : ℚ) : String := toString (roundHalfEven q)

/-- src/core/CueManager.cpp `CueManager::getNextCueNumber` (lines 323–338):
fold `highestNumber` (initially `0.0`) over the list, taking each cue's
`number().toDouble(&ok)` only when `ok && number > highestNumber`; return
`QString::number(highestNumber + 1.0, 'f', 0)`. -/
def CueManager.getNextCueNumber (m : CueManager) : String :=
  let highestNumber := m.cues.foldl
    (fun highest c =>
      match toDouble c.number with
      | some q => if q > highest then q else highest
      | none => highest)
    (0 : ℚ)
  formatF0 (highestNumber + 1)

/-! ## Selection -/

/-- src/core/CueManager.cpp `CueManager::selectCues` (lines 366–384): keep
only ids that resolve via `getCue`; assign and signal only when the validated
list differs from the current selection. -/
def CueManager.selectCues (cueIds : List String) (m : CueManager) :
    CueManager × List Event :=
  let validCueIds := cueIds.filter (fun cueId => (m.getCue cueId).isSome)
  if m.selectedCueIds ≠ validCueIds then
    ({ m with selectedCueIds := validCueIds },
      [Event.selectionChanged, Event.selectedCuesChanged validCueIds])
  else (m, [])

/-- src/core/CueManager.cpp `CueManager::ensureValidSelection`
(lines 911–927): filter the selection through `getCue`; assign and signal
only when the size shrank. -/
def CueManager.ensureValidSelection (m : CueManager) : CueManager × List Event :=
  let validSelection := m.selectedCueIds.filter (fun cueId => (m.getCue cueId).isSome)
  if validSelection.length ≠ m.selectedCueIds.length then
    ({ m with selectedCueIds := validSelection }, [Event.selectionChanged])
  else (m, [])

/-! ## Standby / playhead -/

/-- src/core/CueManager.cpp `CueManager::setStandByCue` (lines 471–484). -/
def CueManager.setStandByCue (cueId : String) (m : CueManager) :
    CueManager × List Event :=
  if m.standByCueId ≠ cueId then
    ({ m with standByCueId := cueId },
      [Event.playheadChanged, Event.standByCueChanged cueId])
  else (m, [])

/-- The body of the scan loop in `findNextExecutableCue`: the first cue with
`isCueExecutable` (a live pointer — always, here — satisfying `canExecute`),
or the empty string. -/
def firstExecutableIn : List Cue → String
  | [] => ""
  | c :: rest => if c.canExecute then c.id else firstExecutableIn rest

/-- src/core/CueManager.cpp `CueManager::findNextExecutableCue`
(lines 888–904): `startIndex = 0` for an empty `fromCueId`, else
`findCueIndex(fromCueId) + 1` (which is `0` again when the id is missing,
`-1 + 1`); then scan `cues_` from `startIndex` for the first executable
cue. -/
def CueManager.findNextExecutableCue (fromCueId : String) (m : CueManager) : String :=
  let startIndex : ℕ :=
    if fromCueId = "" then 0
    else
      match m.findCueIndex fromCueId with
      | some i => i + 1
      | none => 0
  firstExecutableIn (m.cues.drop startIndex)

/-- src/core/CueManager.cpp `CueManager::advanceStandBy` (lines 486–492):
look up the next executable cue after the current standby and set it as
standby — only when one was found. -/
def CueManager.advanceStandBy (m : CueManager) : CueManager × List Event :=
  let nextCueId := m.findNextExecutableCue m.standByCueId
  if nextCueId ≠ "" then m.setStandByCue nextCueId else (m, [])

/-- src/core/CueManager.cpp `CueManager::updateStandByCue` (lines 879–886):
when the current standby id no longer resolves, restart the executable scan
from the list head. -/
def CueManager.updateStandByCue (m : CueManager) : CueManager × List Event :=
  if (m.getCue m.standByCueId).isNone then
    m.setStandByCue (m.findNextExecutableCue "")
  else (m, [])

/-! ## Removal -/

/-- The scan `findCueIndex(cueId)` / `cues_[index]` produce together: the
first cue with the given id, paired with its index. -/
def findPairIn : List Cue → String → ℕ → Option (Cue × ℕ)
  | [], _, _ => none
  | c :: rest, cueId, i =>
    if c.id = cueId then some (c, i) else findPairIn rest cueId (i + 1)

/-- Result of the `removeCues` batch loop. -/
structure RemovalOut where
  state : CueManager
  events : List Event
  stops : List (String × ℚ)
  anyRemoved : Bool

/-- The per-id loop of src/core/CueManager.cpp `CueManager::removeCues`
(lines 145–181): look the id up (`findCueIndex` / `cues_[index]`); when found,
call `cue->stop()` (default fade `0.0`) if it is executing, drop the id from
the selection (`removeAll`), clear the standby id when it matches, drop the
pointer from `activeCues_`, remove the cue from the list and emit
`cueRemoved(cueId, index)`.  A missing id falls through silently. -/
def removeCuesLoop : List String → CueManager → RemovalOut
  | [], m => ⟨m, [], [], false⟩
  | cueId :: rest, m =>
    match findPairIn m.cues cueId 0 with
    | none => removeCuesLoop rest m
    | some (cue, index) =>
      let m' : CueManager := { m with
        selectedCueIds := m.selectedCueIds.filter (fun x => ¬ (x = cueId)),
        standByCueId := if m.standByCueId = cueId then "" else m.standByCueId,
        activeCues := m.activeCues.filter (fun x => ¬ (x = cue.id)),
        cues := m.cues.eraseIdx index }
      let out := removeCuesLoop rest m'
      ⟨out.state,
        Event.cueRemoved cueId index :: out.events,
        (if cue.isExecuting then [(cue.id, (0 : ℚ))] else []) ++ out.stops,
        true⟩

/-- src/core/CueManager.cpp `CueManager::removeCues` (lines 138–194): the
batch loop, then — only when anything was removed — `markWorkspaceModified`,
`updateStandByCue`, `ensureValidSelection` and the aggregate
`cueCountChanged` / `selectionChanged` / `playheadChanged` signals. -/
def CueManager.removeCues (cueIds : List String) (m : CueManager) : RemovalOut :=
  let out := removeCuesLoop cueIds m
  if out.anyRemoved then
    let s1 := out.state.markWorkspaceModified
    let s2 := s1.1.updateStandByCue
    let s3 := s2.1.ensureValidSelection
    ⟨s3.1,
      out.events ++ s1.2 ++ s2.2 ++ s3.2
        ++ [Event.cueCountChanged, Event.selectionChanged, Event.playheadChanged],
      out.stops, true⟩
  else ⟨out.state, out.events, out.stops, false⟩

/-! ## Reordering (`moveCues`) -/

/-- The collection loop of `moveCues` (lines 247–253): resolve each id in
argument order, silently skipping ids that are not found. -/
def collectPairs (cues : List Cue) : List String → List (Cue × ℕ)
  | [] => []
  | cueId :: rest =>
    match findPairIn cues cueId 0 with
    | some p => p :: collectPairs cues rest
    | none => collectPairs cues rest

/-- Insertion step for the descending `std::sort` on `pair.second`
(lines 259–263). -/
def insertDescPair (p : Cue × ℕ) : List (Cue × ℕ) → List (Cue × ℕ)
  | [] => [p]
  | q :: rest => if p.2 > q.2 then p :: q :: rest else q :: insertDescPair p rest

/-- The descending sort of `cuesToMove` by original index. -/
def sortPairsDesc : List (Cue × ℕ) → List (Cue × ℕ)
  | [] => []
  | p :: rest => insertDescPair p (sortPairsDesc rest)

/-- The removal loop of `moveCues` (lines 266–270): walk the
descending-sorted pairs, `removeAt` each index, `prepend` each cue to
`movedCues`; returns (remaining list, movedCues). -/
def removeMovePhase : List (Cue × ℕ) → List Cue → List Cue → List Cue × List Cue
  | [], cues, movedCues => (cues, movedCues)
  | p :: rest, cues, movedCues =>
    removeMovePhase rest (cues.eraseIdx p.2) (p.1 :: movedCues)

/-- `QList::insert(i, value)`: insert before position `i` (appends when `i`
reaches past the end, which validated calls never do). -/
def listInsertAt {α : Type} : ℕ → α → List α → List α
  | 0, c, l => c :: l
  | _ + 1, c, [] => [c]
  | n + 1, c, x :: l => x :: listInsertAt n c l

/-- The insertion loop of `moveCues` (lines 281–283) — also the child
splice-back loop of `ungroupCues` (lines 721–723): insert the k-th element at
`base + k` of the successively mutated list. -/
def insertMovePhase : List Cue → ℕ → List Cue → List Cue
  | [], _, cues => cues
  | c :: rest, k, cues => insertMovePhase rest (k + 1) (listInsertAt k c cues)

/-- src/core/CueManager.cpp `CueManager::moveCues` (lines 238–294): reject an
empty id list or a target outside `[0, size]`; collect the named cues with
their indices; reject when none resolve; remove them back-to-front; drop the
target index once per moved cue whose original index was below the unadjusted
target; splice the block back in at the adjusted index. -/
def CueManager.moveCues (cueIds : List String) (newIndex : ℤ) (m : CueManager) :
    Bool × CueManager × List Event :=
  if cueIds.isEmpty ∨ newIndex < 0 ∨ newIndex > (m.cues.length : ℤ) then (false, m, [])
  else
    let cuesToMove := collectPairs m.cues cueIds
    if cuesToMove.isEmpty then (false, m, [])
    else
      let sorted := sortPairsDesc cuesToMove
      let phase := removeMovePhase sorted m.cues []
      let adjustedIndex : ℤ :=
        newIndex - ((sorted.filter (fun p => (p.2 : ℤ) < newIndex)).length : ℤ)
      let cues' := insertMovePhase phase.2 adjustedIndex.toNat phase.1
      let mm := CueManager.markWorkspaceModified { m with cues := cues' }
      (true, mm.1,
        mm.2 ++ phase.2.map (fun c => Event.cueMoved c.id (-1) adjustedIndex.toNat))

/-! ## Transport -/

/-- src/core/CueManager.cpp `CueManager::stop` (lines 526–540): call
`cue->stop()` (default fade `0.0`) on every pointer cached in `activeCues_`,
then clear the cache and the pause flag.  The stop calls are returned as a
`(cue id, fade)` trace; list members named by the cache transition per the
cue-level `stop`. -/
def CueManager.stop (now : String) (m : CueManager) :
    CueManager × List Event × List (String × ℚ) :=
  let cues' := m.cues.map (fun c => if c.id ∈ m.activeCues then c.stopFade now 0 else c)
  ({ m with cues := cues', activeCues := [], isPaused := false },
    [Event.allCuesStopped, Event.playbackStateChanged],
    m.activeCues.map (fun cueId => (cueId, (0 : ℚ))))

/-- The loop body of `CueManager::panic`: one pass over the full `cues_`
list, force-stopping (`stop(0.0)`) every cue whose `isExecuting()` holds, and
the trace of those calls. -/
def panicSweep (now : String) : List Cue → List Cue × List (String × ℚ)
  | [] => ([], [])
  | c :: rest =>
    if c.isExecuting then
      (c.stopFade now 0 :: (panicSweep now rest).1, (c.id, 0) :: (panicSweep now rest).2)
    else (c :: (panicSweep now rest).1, (panicSweep now rest).2)

/-- src/core/CueManager.cpp `CueManager::panic` (lines 578–594): sweep the
entire list (not the `activeCues_` cache), then clear the cache and the pause
flag unconditionally. -/
def CueManager.panic (now : String) (m : CueManager) :
    CueManager × List Event × List (String × ℚ) :=
  ({ m with cues := (panicSweep now m.cues).1, activeCues := [], isPaused := false },
    [Event.allCuesStopped, Event.playbackStateChanged],
    (panicSweep now m.cues).2)

/-! ## Cue property setters (src/core/Cue.cpp lines 50–174)

Each mirrors the guarded-assignment pattern `if (field_ != value) { field_ =
value; markModified(); emit ...; }`; the three duration-like setters use the
`qAbs(old - new) > 0.001` epsilon guard and clamp with `qMax(0.0, value)`. -/

def Cue.setNumber (now number : String) (c : Cue) : Cue :=
  if c.number ≠ number then (c.withCore { c.core with number := number }).markModified now
  else c

def Cue.setName (now name : String) (c : Cue) : Cue :=
  if c.core.name ≠ name then (c.withCore { c.core with name := name }).markModified now
  else c

def Cue.setArmed (now : String) (armed : Bool) (c : Cue) : Cue :=
  if c.core.armed ≠ armed then (c.withCore { c.core with armed := armed }).markModified now
  else c

def Cue.setFlagged (now : String) (flagged : Bool) (c : Cue) : Cue :=
  if c.core.flagged ≠ flagged then
    (c.withCore { c.core with flagged := flagged }).markModified now
  else c

def Cue.setContinueMode (now : String) (continueMode : Bool) (c : Cue) : Cue :=
  if c.core.continueMode ≠ continueMode then
    (c.withCore { c.core with continueMode := continueMode }).markModified now
  else c

def Cue.setColor (now color : String) (c : Cue) : Cue :=
  if c.core.color ≠ color then (c.withCore { c.core with color := color }).markModified now
  else c

def Cue.setNotes (now notes : String) (c : Cue) : Cue :=
  if c.core.notes ≠ notes then (c.withCore { c.core with notes := notes }).markModified now
  else c

def Cue.setDuration (now : String) (duration : ℚ) (c : Cue) : Cue :=
  if |c.core.duration - duration| > 1 / 1000 then
    (c.withCore { c.core with duration := max 0 duration }).markModified now
  else c

def Cue.setPreWait (now : String) (preWait : ℚ) (c : Cue) : Cue :=
  if |c.core.preWait - preWait| > 1 / 1000 then
    (c.withCore { c.core with preWait := max 0 preWait }).markModified now
  else c

def Cue.setPostWait (now : String) (postWait : ℚ) (c : Cue) : Cue :=
  if |c.core.postWait - postWait| > 1 / 1000 then
    (c.withCore { c.core with postWait := max 0 postWait }).markModified now
  else c

def Cue.setTargetId (now targetId : String) (c : Cue) : Cue :=
  if c.core.targetId ≠ targetId then
    (c.withCore { c.core with targetId := targetId }).markModified now
  else c

/-! ## Construction (`Cue::Cue`, src/core/Cue.cpp lines 12–48) -/

/-- The constructor defaults: `number_ = "1"`, `name_ = "Untitled Cue"`,
`status_ = Loaded`, flags false, `color_ = Qt::white` (name `#ffffff`),
`duration_ = 5.0`, waits and position `0.0`, fresh UUID as `id_`, creation
and modification timestamps at the ambient clock. -/
def freshCueCore (kind : CueType) (freshId now : String) : CueCore :=
  { id := freshId
    kind := kind
    number := "1"
    name := "Untitled Cue"
    status := CueStatus.Loaded
    armed := false
    flagged := false
    continueMode := false
    color := "#ffffff"
    notes := ""
    duration := 5
    preWait := 0
    postWait := 0
    currentPosition := 0
    targetId := ""
    createdTime := now
    modifiedTime := now
    lastExecutedTime := none
    customProperties := []
    inPreWait := false
    inPostWait := false }

/-- src/core/CueManager.cpp `CueManager::createCueOfType` (lines 799–811):
only `Audio` and `Group` construct; every other kind warns and returns
`nullptr`.  (AudioCue.cpp / GroupCue.cpp are not in the sources; both
subclasses start from the base constructor state above — `Modelled from the
spec:` §3, subclass-specific fields are outside the embedded state.) -/
def createCueOfType (kind : CueType) (freshId now : String) : Option Cue :=
  match kind with
  | CueType.Audio => some (Cue.mk (freshCueCore kind freshId now) [])
  | CueType.Group => some (Cue.mk (freshCueCore kind freshId now) [])
  | _ => none

/-- The caller-supplied overrides `addCueAt` understands (its reads of the
`QVariantMap options`; the Audio-only `filePath` override touches only
subclass state outside the embedded fields). -/
structure CueOptions where
  number : Option String := none
  name : Option String := none
  color : Option String := none
  notes : Option String := none
  duration : Option ℚ := none
deriving Repr

/-- src/core/CueManager.cpp `CueManager::addCueAt` (lines 72–131): construct
by kind (empty id on factory failure), apply the option overrides (falling
back to `getNextCueNumber()` for the number), insert at the clamped index
(`qBound(0, index, cues_.size())`), mark modified, and emit
`cueAdded(cue, index)` (the *unclamped* index) and `cueCountChanged`. -/
def CueManager.addCueAt (kind : CueType) (index : ℤ) (opts : CueOptions)
    (freshId now : String) (m : CueManager) : String × CueManager × List Event :=
  match createCueOfType kind freshId now with
  | none => ("", m, [])
  | some cue0 =>
    let cue1 := match opts.number with
      | some n => cue0.setNumber now n
      | none => cue0.setNumber now m.getNextCueNumber
    let cue2 := match opts.name with
      | some v => cue1.setName now v
      | none => cue1
    let cue3 := match opts.color with
      | some v => cue2.setColor now v
      | none => cue2
    let cue4 := match opts.notes with
      | some v => cue3.setNotes now v
      | none => cue3
    let cue5 := match opts.duration with
      | some v => cue4.setDuration now v
      | none => cue4
    let clamped := (max 0 (min index (m.cues.length : ℤ))).toNat
    let mm := CueManager.markWorkspaceModified { m with cues := listInsertAt clamped cue5 m.cues }
    (freshId, mm.1, mm.2 ++ [Event.cueAdded freshId clamped, Event.cueCountChanged])

/-! ## Grouping -/

/-- `QMap<QString,bool>::operator[]= `: update the entry for the key, or
append a new one. -/
def setExpansion : List (String × Bool) → String → Bool → List (String × Bool)
  | [], groupId, b => [(groupId, b)]
  | (k, v) :: rest, groupId, b =>
    if k = groupId then (k, b) :: rest else (k, v) :: setExpansion rest groupId b

/-- `QMap::remove(key)`. -/
def removeExpansion (l : List (String × Bool)) (groupId : String) : List (String × Bool) :=
  l.filter (fun kv => ¬ (kv.1 = groupId))

/-- The id-resolution loop of `createGroupFromCues` (lines 641–654): append
every cue that resolves (in argument order) and track the minimum index;
`none` plays `-1`.  `getCue(cueId)` and `findCueIndex(cueId)` are the same
scan, combined here as `findPairIn`. -/
def collectGroupees (cues : List Cue) :
    List String → List Cue → Option ℕ → List Cue × Option ℕ
  | [], acc, firstIndex => (acc, firstIndex)
  | cueId :: rest, acc, firstIndex =>
    match findPairIn cues cueId 0 with
    | some p =>
      let firstIndex' := match firstIndex with
        | none => some p.2
        | some fi => if p.2 < fi then some p.2 else some fi
      collectGroupees cues rest (acc ++ [p.1]) firstIndex'
    | none => collectGroupees cues rest acc firstIndex

/-- The extraction loop of `createGroupFromCues` (lines 666–677): re-find
each collected cue, remove it from the flat list, append it to the group's
children (`GroupCue::addChildCue` appends — `Modelled from the spec:`
GroupCue.cpp is not in the sources; spec §4.2, an owned *ordered* child
list), and decrement the insertion index for removals before it.  Returns
(remaining flat list, children, adjusted first index). -/
def groupRemovalPhase : List Cue → List Cue → List Cue → ℕ → List Cue × List Cue × ℕ
  | [], cues, children, firstIndex => (cues, children, firstIndex)
  | cue :: rest, cues, children, firstIndex =>
    match findIdxIn cues cue.id 0 with
    | some index =>
      groupRemovalPhase rest (cues.eraseIdx index) (children ++ [cue])
        (if index < firstIndex then firstIndex - 1 else firstIndex)
    | none => groupRemovalPhase rest cues children firstIndex

/-- src/core/CueManager.cpp `CueManager::createGroupFromCues`
(lines 633–696): resolve the ids (empty result on an empty argument or when
none resolve); build a fresh `GroupCue` numbered `getNextCueNumber()` and
named "Group"; extract the resolved cues into it; insert it at the adjusted
minimum index; default its expansion state to expanded. -/
def CueManager.createGroupFromCues (cueIds : List String) (freshId now : String)
    (m : CueManager) : String × CueManager × List Event :=
  if cueIds.isEmpty then ("", m, [])
  else
    let collected := collectGroupees m.cues cueIds [] none
    match collected.2 with
    | none => ("", m, [])
    | some firstIndex =>
      let group0 := ((Cue.mk (freshCueCore CueType.Group freshId now) []).setNumber
        now m.getNextCueNumber).setName now "Group"
      let phase := groupRemovalPhase collected.1 m.cues [] firstIndex
      let group := Cue.mk group0.core phase.2.1
      let mm := CueManager.markWorkspaceModified { m with
        cues := listInsertAt phase.2.2 group phase.1,
        groupExpansionState := setExpansion m.groupExpansionState freshId true }
      (freshId, mm.1,
        mm.2 ++ [Event.groupCreated freshId, Event.cueAdded freshId phase.2.2,
          Event.cueCountChanged])

/-- src/core/CueManager.cpp `CueManager::ungroupCues` (lines 698–746): fail
unless the id resolves to a group in the flat list; remove the group, splice
its children back in at its former index (in order), discard its expansion
entry, emit the removal/insertion signals, destroy the group. -/
def CueManager.ungroupCues (groupId : String) (m : CueManager) :
    Bool × CueManager × List Event :=
  match m.getCue groupId with
  | none => (false, m, [])
  | some cue =>
    if cue.kind ≠ CueType.Group then (false, m, [])
    else
      match m.findCueIndex groupId with
      | none => (false, m, [])
      | some groupIndex =>
        let children := cue.children
        let cues' := insertMovePhase children groupIndex (m.cues.eraseIdx groupIndex)
        let mm := CueManager.markWorkspaceModified { m with
          cues := cues',
          groupExpansionState := removeExpansion m.groupExpansionState groupId }
        (true, mm.1,
          mm.2 ++ [Event.groupRemoved groupId, Event.cueRemoved groupId groupIndex]
            ++ children.enum.map (fun p => Event.cueAdded p.2.id (groupIndex + p.1))
            ++ [Event.cueCountChanged])

/-! ## Serialization (src/core/Cue.cpp lines 325–449) -/

/-- src/core/Cue.cpp `Cue::initializeTypeStringMap` / `typeToString`. -/
def typeToString : CueType → String
  | CueType.Audio => "Audio"
  | CueType.Video => "Video"
  | CueType.MIDI => "MIDI"
  | CueType.Wait => "Wait"
  | CueType.Start => "Start"
  | CueType.Stop => "Stop"
  | CueType.Goto => "Goto"
  | CueType.Fade => "Fade"
  | CueType.Group => "Group"
  | CueType.Target => "Target"
  | CueType.Load => "Load"
  | CueType.Script => "Script"

/-- `static_cast<int>(status_)`: the declaration order of
`enum class CueStatus` in src/core/Cue.h. -/
def statusToInt : CueStatus → ℤ
  | CueStatus.Loaded => 0
  | CueStatus.Playing => 1
  | CueStatus.Paused => 2
  | CueStatus.Stopped => 3
  | CueStatus.Loading => 4
  | CueStatus.Broken => 5
  | CueStatus.Armed => 6

/-- `static_cast<CueStatus>(int)`; a value outside `0..6` is outside the
enum's range (the cast is unspecified there) — any total extension serves,
and only `0..6` is produced by `toJson`. -/
def intToStatus : ℤ → CueStatus
  | 1 => CueStatus.Playing
  | 2 => CueStatus.Paused
  | 3 => CueStatus.Stopped
  | 4 => CueStatus.Loading
  | 5 => CueStatus.Broken
  | 6 => CueStatus.Armed
  | _ => CueStatus.Loaded

/-- The `QJsonObject` a cue serializes to, with the fixed key schema of
`Cue::toJson`; `none` is an absent key.  (The json key for `kind` is
`"type"`.) -/
structure CueJson where
  id : Option String := none
  kind : Option String := none
  number : Option String := none
  name : Option String := none
  status : Option ℤ := none
  armed : Option Bool := none
  flagged : Option Bool := none
  continueMode : Option Bool := none
  color : Option String := none
  notes : Option String := none
  duration : Option ℚ := none
  preWait : Option ℚ := none
  postWait : Option ℚ := none
  targetId : Option String := none
  createdTime : Option String := none
  modifiedTime : Option String := none
  lastExecutedTime : Option String := none
  customProperties : Option (List (String × String)) := none
deriving DecidableEq, Repr

/-- src/core/Cue.cpp `Cue::toJson` (lines 325–372): every schema-fixed field
is written; `targetId` only when non-empty, `lastExecutedTime` only when
valid, `customProperties` only when non-empty (`color_.name()` is the stored
color string in this model). -/
def Cue.toJson (c : Cue) : CueJson :=
  { id := some c.core.id
    kind := some (typeToString c.core.kind)
    number := some c.core.number
    name := some c.core.name
    status := some (statusToInt c.core.status)
    armed := some c.core.armed
    flagged := some c.core.flagged
    continueMode := some c.core.continueMode
    color := some c.core.color
    notes := some c.core.notes
    duration := some c.core.duration
    preWait := some c.core.preWait
    postWait := some c.core.postWait
    targetId := if c.core.targetId ≠ "" then some c.core.targetId else none
    createdTime := some c.core.createdTime
    modifiedTime := some c.core.modifiedTime
    lastExecutedTime := c.core.lastExecutedTime
    customProperties :=
      if c.core.customProperties ≠ [] then some c.core.customProperties else none }

/-- src/core/Cue.cpp `Cue::fromJson` (lines 374–449): for each present key,
apply the corresponding public setter (with its guards); the three
timestamps are assigned directly, and a present `customProperties` replaces
the whole map.  `id` and `type` are never read.  The C++ returns `bool`
(the `catch (...)` path cannot arise here). -/
def Cue.fromJson (now : String) (json : CueJson) (c : Cue) : Cue :=
  let c := match json.number with | some v => c.setNumber now v | none => c
  let c := match json.name with | some v => c.setName now v | none => c
  let c := match json.status with | some v => c.setStatus now (intToStatus v) | none => c
  let c := match json.armed with | some v => c.setArmed now v | none => c
  let c := match json.flagged with | some v => c.setFlagged now v | none => c
  let c := match json.continueMode with | some v => c.setContinueMode now v | none => c
  let c := match json.color with | some v => c.setColor now v | none => c
  let c := match json.notes with | some v => c.setNotes now v | none => c
  let c := match json.duration with | some v => c.setDuration now v | none => c
  let c := match json.preWait with | some v => c.setPreWait now v | none => c
  let c := match json.postWait with | some v => c.setPostWait now v | none => c
  let c := match json.targetId with | some v => c.setTargetId now v | none => c
  let c := match json.createdTime with
    | some v => c.withCore { c.core with createdTime := v }
    | none => c
  let c := match json.modifiedTime with
    | some v => c.withCore { c.core with modifiedTime := v }
    | none => c
  let c := match json.lastExecutedTime with
    | some v => c.withCore { c.core with lastExecutedTime := some v }
    | none => c
  let c := match json.customProperties with
    | some kvs => c.withCore { c.core with customProperties := kvs }
    | none => c
  c

/-! ## Concrete fixtures for witnesses and counterexamples -/

/-- An audio cue with the given id, number and status (everything else at the
constructor defaults). -/
def sampleCue (cueId number : String) (status : CueStatus) : Cue :=
  Cue.mk { freshCueCore CueType.Audio cueId "t0" with number := number, status := status } []

/-- A manager owning the given cues, with idle transport and empty
selection. -/
def sampleMgr (cues : List Cue) : CueManager :=
  { cues := cues
    selectedCueIds := []
    standByCueId := ""
    hasUnsavedChanges := true
    isPaused := false
    activeCues := []
    groupExpansionState := []
    clipboard := [] }

/-- `[a, b, c, d, e]`, numbered 1–5, all `Loaded`. -/
def fiveMgr : CueManager :=
  sampleMgr [sampleCue "a" "1" CueStatus.Loaded, sampleCue "b" "2" CueStatus.Loaded,
    sampleCue "c" "3" CueStatus.Loaded, sampleCue "d" "4" CueStatus.Loaded,
    sampleCue "e" "5" CueStatus.Loaded]

/-- `fiveMgr` after `createGroupFromCues(["b","d"])` (fresh group id "g"). -/
def fiveGrouped : CueManager := (fiveMgr.createGroupFromCues ["b", "d"] "g" "t1").2.1

/-- `fiveGrouped` after `ungroupCues("g")`. -/
def fiveUngrouped : CueManager := (fiveGrouped.ungroupCues "g").2.1

/-- `[a, b, c]`, numbered 1–3, all `Loaded`. -/
def threeMgr : CueManager :=
  sampleMgr [sampleCue "a" "1" CueStatus.Loaded, sampleCue "b" "2" CueStatus.Loaded,
    sampleCue "c" "3" CueStatus.Loaded]

/-- A single non-executable cue `a`, already on standby. -/
def stalledMgr : CueManager :=
  { sampleMgr [sampleCue "a" "1" CueStatus.Stopped] with standByCueId := "a" }

/-- One cue whose number parses negative. -/
def negNumMgr : CueManager := sampleMgr [sampleCue "a" "-3" CueStatus.Loaded]

/-- Numbers `["1","2","abc","4.5"]`. -/
def mixedNumMgr : CueManager :=
  sampleMgr [sampleCue "a" "1" CueStatus.Loaded, sampleCue "b" "2" CueStatus.Loaded,
    sampleCue "c" "abc" CueStatus.Loaded, sampleCue "d" "4.5" CueStatus.Loaded]

/-- Cues `[a, b]` (both non-executable) with `a` selected: removing `b`
cannot change the (already valid) selection. -/
def selNoiseMgr : CueManager :=
  { sampleMgr [sampleCue "a" "1" CueStatus.Stopped, sampleCue "b" "2" CueStatus.Stopped] with
    selectedCueIds := ["a"] }

/-- An executing cue `a` (selected, on standby, in the active cache) next to
a loaded cue `b`; fixture for the removal claims. -/
def runningMgr : CueManager :=
  { sampleMgr [sampleCue "a" "1" CueStatus.Playing, sampleCue "b" "2" CueStatus.Loaded] with
    selectedCueIds := ["a", "b"]
    standByCueId := "a"
    activeCues := ["a"] }

/-- A fully-populated cue for the serialization claims. -/
def richCue : Cue :=
  Cue.mk { freshCueCore CueType.Audio "x" "t0" with
    number := "7"
    name := "N"
    status := CueStatus.Stopped
    armed := true
    continueMode := true
    color := "#112233"
    notes := "memo"
    duration := 3
    preWait := 2
    postWait := 0
    currentPosition := 1
    targetId := "z"
    lastExecutedTime := some "LE"
    customProperties := [("k", "v")] } []

/-- `richCue` serialized and read back into a fresh audio cue with id "y". -/
def richRoundTrip : Cue :=
  Cue.fromJson "t9" richCue.toJson (Cue.mk (freshCueCore CueType.Audio "y" "t5") [])

/-- Claim-side formulation (spec §4.3, `advanceStandBy`): the position the
forward walk starts from — the slot after the current standby cue, or the
list head when there is no standby.  Stated with the library's `findIdx?`,
independently of the source's `findCueIndex` loop. -/
def standbyScanStart (m : CueManager) : ℕ :=
  if m.standByCueId = "" then 0
  else ((m.cues.findIdx? (fun c => c.id = m.standByCueId)).getD m.cues.length) + 1

/-- Specification-side enumeration of the positions a predicate holds at:
each satisfying cue paired with its index, in ascending index order.  Used to
characterize the sorted collection `moveCues` builds. -/
def ascPairs (P : Cue → Bool) : List Cue → ℕ → List (Cue × ℕ)
  | [], _ => []
  | c :: rest, i =>
    if P c then (c, i) :: ascPairs P rest (i + 1) else ascPairs P rest (i + 1)

/-- The same enumeration in descending index order — the unique arrangement
the descending `std::sort` of `moveCues` must produce. -/
def descPairs (P : Cue → Bool) (l : List Cue) : List (Cue × ℕ) :=
  (ascPairs P l 0).reverse

end CueForge

namespace CueForge

/-! # Helper lemmas -/

/-! Concrete parses of `toDouble` (the kernel evaluates the character
scanning; `norm_num` settles the resulting rational arithmetic). -/

theorem toDouble_1 : toDouble "1" = some 1 := by
  have h : toDouble "1"
      = some (((1:ℤ):ℚ) * (((1:ℕ):ℚ) + ((0:ℕ):ℚ) / (10:ℚ) ^ (0:ℕ))) := rfl
  rw [h]; norm_num

theorem toDouble_2 : toDouble "2" = some 2 := by
  have h : toDouble "2"
      = some (((1:ℤ):ℚ) * (((2:ℕ):ℚ) + ((0:ℕ):ℚ) / (10:ℚ) ^ (0:ℕ))) := rfl
  rw [h]; norm_num

theorem toDouble_3 : toDouble "3" = some 3 := by
  have h : toDouble "3"
      = some (((1:ℤ):ℚ) * (((3:ℕ):ℚ) + ((0:ℕ):ℚ) / (10:ℚ) ^ (0:ℕ))) := rfl
  rw [h]; norm_num

theorem toDouble_4 : toDouble "4" = some 4 := by
  have h : toDouble "4"
      = some (((1:ℤ):ℚ) * (((4:ℕ):ℚ) + ((0:ℕ):ℚ) / (10:ℚ) ^ (0:ℕ))) := rfl
  rw [h]; norm_num

theorem toDouble_5 : toDouble "5" = some 5 := by
  have h : toDouble "5"
      = some (((1:ℤ):ℚ) * (((5:ℕ):ℚ) + ((0:ℕ):ℚ) / (10:ℚ) ^ (0:ℕ))) := rfl
  rw [h]; norm_num

theorem toDouble_45 : toDouble "4.5" = some 4.5 := by
  have h : toDouble "4.5"
      = some (((1:ℤ):ℚ) * (((4:ℕ):ℚ) + ((5:ℕ):ℚ) / (10:ℚ) ^ (1:ℕ))) := rfl
  rw [h]; norm_num

theorem toDouble_abc : toDouble "abc" = none := rfl

theorem toDouble_neg3 : toDouble "-3" = some (-3) := by
  have h : toDouble "-3"
      = some ((((-1):ℤ):ℚ) * (((3:ℕ):ℚ) + ((0:ℕ):ℚ) / (10:ℚ) ^ (0:ℕ))) := rfl
  rw [h]; norm_num

theorem fiveMgr_next : fiveMgr.getNextCueNumber = "6" := by
  unfold CueManager.getNextCueNumber
  simp only [fiveMgr, sampleMgr, sampleCue, Cue.number, Cue.core, List.foldl,
    toDouble_1, toDouble_2, toDouble_3, toDouble_4, toDouble_5]
  norm_num
  have h : roundHalfEven 6 = 6 := by unfold roundHalfEven; norm_num
  unfold formatF0
  rw [h]
  decide

theorem mixedNumMgr_next : mixedNumMgr.getNextCueNumber = "6" := by
  unfold CueManager.getNextCueNumber
  simp only [mixedNumMgr, sampleMgr, sampleCue, Cue.number, Cue.core, List.foldl,
    toDouble_1, toDouble_2, toDouble_abc, toDouble_45]
  norm_num
  have h : roundHalfEven (11 / 2) = 6 := by unfold roundHalfEven; norm_num
  unfold formatF0
  rw [h]
  decide

theorem negNumMgr_next : negNumMgr.getNextCueNumber = "1" := by
  unfold CueManager.getNextCueNumber
  simp only [negNumMgr, sampleMgr, sampleCue, Cue.number, Cue.core, List.foldl,
    toDouble_neg3]
  norm_num
  have h : roundHalfEven 1 = 1 := by unfold roundHalfEven; norm_num
  unfold formatF0
  rw [h]
  decide

theorem core_withCore (c : Cue) (x : CueCore) : (c.withCore x).core = x := rfl

theorem children_withCore (c : Cue) (x : CueCore) : (c.withCore x).children = c.children :=
  rfl

theorem id_setStatus (now : String) (s : CueStatus) (c : Cue) :
    (c.setStatus now s).id = c.id := by
  unfold Cue.setStatus
  split
  · rfl
  · rfl

theorem id_stopFade (now : String) (f : ℚ) (c : Cue) : (c.stopFade now f).id = c.id := by
  unfold Cue.stopFade
  rw [id_setStatus]
  rfl

/-! # Claim C1 — `panic()` sweeps the full list, ignoring the cache -/

theorem panicSweep_calls (now : String) :
    ∀ l : List Cue,
      (panicSweep now l).2
        = (l.filter (fun c => c.isExecuting)).map (fun c => (c.id, (0 : ℚ)))
  | [] => rfl
  | c :: rest => by
    rw [panicSweep, List.filter_cons]
    by_cases h : c.isExecuting <;>
      simp [h, panicSweep_calls now rest]

/-- C1.  Whatever the active-cue cache holds — desynchronized, empty, or
anything else — `panic()` issues a zero-fade `stop` for exactly the cues of
the full top-level list whose `isExecuting()` holds (in list order), and
afterwards the active set is empty and the pause flag is down. -/
theorem panic_stops_every_executing_cue (m : CueManager) (now : String) :
    (m.panic now).2.2
        = (m.cues.filter (fun c => c.isExecuting)).map (fun c => (c.id, (0 : ℚ)))
      ∧ (m.panic now).1.activeCues = [] ∧ (m.panic now).1.isPaused = false := by
  refine ⟨?_, rfl, rfl⟩
  exact panicSweep_calls now m.cues

/-! # Claim C2 — `canExecute` / `trigger` -/

/-- C2.  `canExecute()` holds exactly in `Loaded` and `Armed`, and `trigger()`
from any other status returns the cue completely unchanged. -/
theorem canExecute_iff_and_trigger_noop (c : Cue) (now : String) :
    (c.canExecute = true ↔ c.status = CueStatus.Loaded ∨ c.status = CueStatus.Armed)
      ∧ (c.status ≠ CueStatus.Loaded → c.status ≠ CueStatus.Armed →
          c.trigger now = c) := by
  constructor
  · simp [Cue.canExecute]
  · intro h1 h2
    simp [Cue.trigger, Cue.canExecute, h1, h2]

/-- Witness for C2 at a concrete `Playing` cue. -/
theorem canExecute_iff_and_trigger_noop_witness :
    Cue.trigger "t1" (sampleCue "p" "1" CueStatus.Playing)
      = sampleCue "p" "1" CueStatus.Playing :=
  (canExecute_iff_and_trigger_noop (sampleCue "p" "1" CueStatus.Playing) "t1").2
    (by decide) (by decide)

/-! # Claim C10 — the manager-level `stop()` frame -/

/-- C10.  `stop()` empties the active-cue set and lowers the pause flag, and
leaves the list membership and order (the cue ids in sequence), the
selection, the standby id, the group-expansion map and the clipboard exactly
as they were: it performs no structural mutation. -/
theorem stop_frame (m : CueManager) (now : String) :
    (m.stop now).1.activeCues = [] ∧ (m.stop now).1.isPaused = false
      ∧ (m.stop now).1.cues.map Cue.id = m.cues.map Cue.id
      ∧ (m.stop now).1.selectedCueIds = m.selectedCueIds
      ∧ (m.stop now).1.standByCueId = m.standByCueId
      ∧ (m.stop now).1.groupExpansionState = m.groupExpansionState
      ∧ (m.stop now).1.clipboard = m.clipboard := by
  refine ⟨rfl, rfl, ?_, rfl, rfl, rfl, rfl⟩
  show (m.cues.map fun c => if c.id ∈ m.activeCues then c.stopFade now 0 else c).map Cue.id
      = m.cues.map Cue.id
  rw [List.map_map]
  apply List.map_congr_left
  intro c _
  show Cue.id (if c.id ∈ m.activeCues then c.stopFade now 0 else c) = c.id
  split
  · exact id_stopFade now 0 c
  · rfl

/-! # Claim C4 — `advanceStandBy` -/

theorem findIdxIn_eq_findIdx (cueId : String) :
    ∀ (l : List Cue) (i : ℕ),
      findIdxIn l cueId i = List.findIdx? (fun c => c.id = cueId) l i
  | [], _ => rfl
  | c :: rest, i => by
    by_cases h : c.id = cueId <;>
      simp [findIdxIn, List.findIdx?, h, findIdxIn_eq_findIdx cueId rest (i + 1)]

theorem findIdxIn_of_mem (cueId : String) :
    ∀ (l : List Cue) (i : ℕ), cueId ∈ l.map Cue.id →
      ∃ j, findIdxIn l cueId i = some j
  | [], _, hmem => absurd hmem (by simp)
  | c :: rest, i, hmem => by
    by_cases h : c.id = cueId
    · exact ⟨i, by simp [findIdxIn, h]⟩
    · have : cueId ∈ rest.map Cue.id := by
        rcases List.mem_cons.mp hmem with h' | h'
        · exact absurd h'.symm h
        · exact h'
      obtain ⟨j, hj⟩ := findIdxIn_of_mem cueId rest (i + 1) this
      exact ⟨j, by simp [findIdxIn, h, hj]⟩

theorem firstExecutableIn_of_find_some :
    ∀ (l : List Cue) (c : Cue),
      l.find? (fun c => c.canExecute) = some c → firstExecutableIn l = c.id
  | [], c, h => by simp at h
  | x :: rest, c, h => by
    rw [List.find?_cons] at h
    by_cases hx : x.canExecute
    · rw [hx] at h
      cases h
      simp [firstExecutableIn, hx]
    · rw [Bool.not_eq_true] at hx
      rw [hx] at h
      simp only [firstExecutableIn, hx, Bool.false_eq_true, if_false]
      exact firstExecutableIn_of_find_some rest c h

theorem firstExecutableIn_of_find_none :
    ∀ l : List Cue,
      l.find? (fun c => c.canExecute) = none → firstExecutableIn l = ""
  | [], _ => rfl
  | x :: rest, h => by
    rw [List.find?_cons] at h
    by_cases hx : x.canExecute
    · rw [hx] at h
      cases h
    · rw [Bool.not_eq_true] at hx
      rw [hx] at h
      simp only [firstExecutableIn, hx, Bool.false_eq_true, if_false]
      exact firstExecutableIn_of_find_none rest h

/-- C4 (amended).  With a well-formed standby (empty, or naming a listed cue
— and no cue carrying the empty id), `advanceStandBy()` walks forward from
the slot after the standby cue (or the list head when there is none) to the
first cue satisfying `canExecute()` and makes it the standby, changing
nothing else; when no such cue exists it leaves the whole state — in
particular the standby id — unchanged (it does *not* clear it). -/
theorem advanceStandBy_walks_forward (m : CueManager)
    (hne : "" ∉ m.cues.map Cue.id)
    (hsb : m.standByCueId = "" ∨ m.standByCueId ∈ m.cues.map Cue.id) :
    ((m.cues.drop (standbyScanStart m)).find? (fun c => c.canExecute) = none →
        m.advanceStandBy = (m, []))
      ∧ ∀ c, (m.cues.drop (standbyScanStart m)).find? (fun c => c.canExecute) = some c →
          (m.advanceStandBy).1 = { m with standByCueId := c.id } := by
  have hstart : (if m.standByCueId = "" then 0
      else match m.findCueIndex m.standByCueId with
        | some i => i + 1
        | none => 0) = standbyScanStart m := by
    unfold standbyScanStart
    by_cases h0 : m.standByCueId = ""
    · simp [h0]
    · rcases hsb with h | h
      · exact absurd h h0
      · obtain ⟨j, hj⟩ := findIdxIn_of_mem m.standByCueId m.cues 0 h
        have hj' : m.findCueIndex m.standByCueId = some j := hj
        rw [if_neg h0, if_neg h0, hj']
        rw [findIdxIn_eq_findIdx] at hj
        rw [hj]
        rfl
  constructor
  · intro hnone
    have : m.findNextExecutableCue m.standByCueId = "" := by
      unfold CueManager.findNextExecutableCue
      rw [hstart]
      exact firstExecutableIn_of_find_none _ hnone
    unfold CueManager.advanceStandBy
    rw [this]
    simp
  · intro c hsome
    have hid : m.findNextExecutableCue m.standByCueId = c.id := by
      unfold CueManager.findNextExecutableCue
      rw [hstart]
      exact firstExecutableIn_of_find_some _ c hsome
    have hcmem : c ∈ m.cues := by
      have := List.mem_of_find?_eq_some hsome
      exact (List.drop_subset _ _) this
    have hcne : c.id ≠ "" := by
      intro h
      exact hne (h ▸ List.mem_map_of_mem Cue.id hcmem)
    unfold CueManager.advanceStandBy
    rw [hid, if_pos hcne]
    unfold CueManager.setStandByCue
    by_cases heq : m.standByCueId = c.id
    · rw [if_neg (by simpa using heq)]
      show m = { m with standByCueId := c.id }
      rw [← heq]
    · rw [if_pos (by simpa using heq)]

/-- Witness for C4: on `[a,b,c]` with no standby, the walk finds `a`. -/
theorem advanceStandBy_walks_forward_witness :
    (threeMgr.advanceStandBy).1
      = { threeMgr with standByCueId := "a" } := by
  have h := (advanceStandBy_walks_forward threeMgr (by decide) (Or.inl rfl)).2
    (sampleCue "a" "1" CueStatus.Loaded) rfl
  exact h

/-- C4 counterexample.  With `a` (non-executable) on standby and nothing
executable after it, the claim says `advanceStandBy()` clears the standby
id; the code leaves it at `"a"`. -/
theorem advanceStandBy_does_not_clear :
    (stalledMgr.advanceStandBy).1.standByCueId = "a" ∧ "a" ≠ "" := by
  constructor
  · rfl
  · decide

/-! # Claim C7 — `getNextCueNumber` -/

theorem highestFold_eq_foldl_max :
    ∀ (l : List Cue) (a : ℚ),
      l.foldl
          (fun highest c =>
            match toDouble c.number with
            | some q => if q > highest then q else highest
            | none => highest) a
        = (l.filterMap (fun c => toDouble c.number)).foldl max a
  | [], _ => rfl
  | c :: rest, a => by
    cases h : toDouble c.number with
    | none => simp [h, List.filterMap_cons, highestFold_eq_foldl_max rest a]
    | some q =>
      have hmax : (if q > a then q else a) = max a q := by
        rcases lt_or_ge a q with h' | h'
        · rw [if_pos h', max_eq_right h'.le]
        · rw [if_neg (not_lt.mpr h'), max_eq_left h']
      simp only [List.foldl_cons, h, List.filterMap_cons, hmax,
        highestFold_eq_foldl_max rest (max a q)]

/-- C7 (amended).  `getNextCueNumber()` parses each cue's `number`, ignores
cues whose number does not parse, and returns `(max(0, maximum parsed value)
+ 1)` formatted as an integer (negative maxima are floored to `0` by the
fold's `0.0` seed, so `"1"` comes back when nothing parses *or* everything
parses non-positive); on numbers `["1","2","abc","4.5"]` it returns `"6"`. -/
theorem getNextCueNumber_formula (m : CueManager) :
    m.getNextCueNumber
        = formatF0 ((m.cues.filterMap (fun c => toDouble c.number)).foldl max 0 + 1)
      ∧ mixedNumMgr.getNextCueNumber = "6" := by
  constructor
  · unfold CueManager.getNextCueNumber
    rw [highestFold_eq_foldl_max]
  · exact mixedNumMgr_next

/-- C7 counterexample.  On the single number `"-3"` the claim's value is
`(-3 + 1)` formatted, i.e. `"-2"`; the code's fold starts at `0.0` and only
ever raises it, so it returns `"1"`. -/
theorem getNextCueNumber_negative_max :
    negNumMgr.cues.filterMap (fun c => toDouble c.number) = [(-3 : ℚ)]
      ∧ formatF0 ((-3 : ℚ) + 1) = "-2"
      ∧ negNumMgr.getNextCueNumber = "1"
      ∧ ("1" : String) ≠ "-2" := by
  refine ⟨?_, ?_, negNumMgr_next, by decide⟩
  · simp [negNumMgr, sampleMgr, sampleCue, Cue.number, Cue.core, toDouble_neg3]
  · have h1 : ((-3 : ℚ) + 1) = -2 := by norm_num
    have h : roundHalfEven (-2 : ℚ) = -2 := by unfold roundHalfEven; norm_num
    rw [h1]
    unfold formatF0
    rw [h]
    decide

/-! # Claim C9 — serialization round-trip -/

theorem setNumber_eq (now v : String) (c : Cue) :
    c.setNumber now v
      = Cue.mk
          { c.core with
            number := v
            modifiedTime := if c.core.number ≠ v then now else c.core.modifiedTime }
          c.children := by
  cases c with
  | mk core ch =>
    unfold Cue.setNumber
    simp only [Cue.number, Cue.core, Cue.withCore, Cue.markModified, Cue.children]
    by_cases h : core.number ≠ v
    · simp [h]
    · simp only [h, if_false, if_neg h]
      push_neg at h
      rw [← h]

theorem setName_eq (now v : String) (c : Cue) :
    c.setName now v
      = Cue.mk
          { c.core with
            name := v
            modifiedTime := if c.core.name ≠ v then now else c.core.modifiedTime }
          c.children := by
  cases c with
  | mk core ch =>
    unfold Cue.setName
    simp only [Cue.core, Cue.withCore, Cue.markModified, Cue.children]
    by_cases h : core.name ≠ v
    · simp [h]
    · simp only [h, if_false, if_neg h]
      push_neg at h
      rw [← h]

theorem setStatus_eq (now : String) (v : CueStatus) (c : Cue) :
    c.setStatus now v
      = Cue.mk
          { c.core with
            status := v
            modifiedTime := if c.core.status = v then c.core.modifiedTime else now }
          c.children := by
  cases c with
  | mk core ch =>
    unfold Cue.setStatus
    simp only [Cue.status, Cue.core, Cue.withCore, Cue.markModified, Cue.children]
    by_cases h : core.status = v
    · simp only [h, if_pos rfl, if_true]
      rw [← h]
    · simp [h]

theorem setArmed_eq (now : String) (v : Bool) (c : Cue) :
    c.setArmed now v
      = Cue.mk
          { c.core with
            armed := v
            modifiedTime := if c.core.armed ≠ v then now else c.core.modifiedTime }
          c.children := by
  cases c with
  | mk core ch =>
    unfold Cue.setArmed
    simp only [Cue.core, Cue.withCore, Cue.markModified, Cue.children]
    by_cases h : core.armed ≠ v
    · simp [h]
    · simp only [h, if_false, if_neg h]
      push_neg at h
      rw [← h]

theorem setFlagged_eq (now : String) (v : Bool) (c : Cue) :
    c.setFlagged now v
      = Cue.mk
          { c.core with
            flagged := v
            modifiedTime := if c.core.flagged ≠ v then now else c.core.modifiedTime }
          c.children := by
  cases c with
  | mk core ch =>
    unfold Cue.setFlagged
    simp only [Cue.core, Cue.withCore, Cue.markModified, Cue.children]
    by_cases h : core.flagged ≠ v
    · simp [h]
    · simp only [h, if_false, if_neg h]
      push_neg at h
      rw [← h]

theorem setContinueMode_eq (now : String) (v : Bool) (c : Cue) :
    c.setContinueMode now v
      = Cue.mk
          { c.core with
            continueMode := v
            modifiedTime := if c.core.continueMode ≠ v then now else c.core.modifiedTime }
          c.children := by
  cases c with
  | mk core ch =>
    unfold Cue.setContinueMode
    simp only [Cue.core, Cue.withCore, Cue.markModified, Cue.children]
    by_cases h : core.continueMode ≠ v
    · simp [h]
    · simp only [h, if_false, if_neg h]
      push_neg at h
      rw [← h]

theorem setColor_eq (now v : String) (c : Cue) :
    c.setColor now v
      = Cue.mk
          { c.core with
            color := v
            modifiedTime := if c.core.color ≠ v then now else c.core.modifiedTime }
          c.children := by
  cases c with
  | mk core ch =>
    unfold Cue.setColor
    simp only [Cue.core, Cue.withCore, Cue.markModified, Cue.children]
    by_cases h : core.color ≠ v
    · simp [h]
    · simp only [h, if_false, if_neg h]
      push_neg at h
      rw [← h]

theorem setNotes_eq (now v : String) (c : Cue) :
    c.setNotes now v
      = Cue.mk
          { c.core with
            notes := v
            modifiedTime := if c.core.notes ≠ v then now else c.core.modifiedTime }
          c.children := by
  cases c with
  | mk core ch =>
    unfold Cue.setNotes
    simp only [Cue.core, Cue.withCore, Cue.markModified, Cue.children]
    by_cases h : core.notes ≠ v
    · simp [h]
    · simp only [h, if_false, if_neg h]
      push_neg at h
      rw [← h]

theorem setTargetId_eq (now v : String) (c : Cue) :
    c.setTargetId now v
      = Cue.mk
          { c.core with
            targetId := v
            modifiedTime := if c.core.targetId ≠ v then now else c.core.modifiedTime }
          c.children := by
  cases c with
  | mk core ch =>
    unfold Cue.setTargetId
    simp only [Cue.core, Cue.withCore, Cue.markModified, Cue.children]
    by_cases h : core.targetId ≠ v
    · simp [h]
    · simp only [h, if_false, if_neg h]
      push_neg at h
      rw [← h]

theorem setDuration_eq (now : String) (v : ℚ) (c : Cue) :
    c.setDuration now v
      = Cue.mk
          { c.core with
            duration := if |c.core.duration - v| > 1 / 1000 then max 0 v else c.core.duration
            modifiedTime :=
              if |c.core.duration - v| > 1 / 1000 then now else c.core.modifiedTime }
          c.children := by
  cases c with
  | mk core ch =>
    unfold Cue.setDuration
    simp only [Cue.core, Cue.withCore, Cue.markModified, Cue.children]
    split_ifs with h <;> rfl

theorem setPreWait_eq (now : String) (v : ℚ) (c : Cue) :
    c.setPreWait now v
      = Cue.mk
          { c.core with
            preWait := if |c.core.preWait - v| > 1 / 1000 then max 0 v else c.core.preWait
            modifiedTime :=
              if |c.core.preWait - v| > 1 / 1000 then now else c.core.modifiedTime }
          c.children := by
  cases c with
  | mk core ch =>
    unfold Cue.setPreWait
    simp only [Cue.core, Cue.withCore, Cue.markModified, Cue.children]
    split_ifs with h <;> rfl

theorem setPostWait_eq (now : String) (v : ℚ) (c : Cue) :
    c.setPostWait now v
      = Cue.mk
          { c.core with
            postWait := if |c.core.postWait - v| > 1 / 1000 then max 0 v else c.core.postWait
            modifiedTime :=
              if |c.core.postWait - v| > 1 / 1000 then now else c.core.modifiedTime }
          c.children := by
  cases c with
  | mk core ch =>
    unfold Cue.setPostWait
    simp only [Cue.core, Cue.withCore, Cue.markModified, Cue.children]
    split_ifs with h <;> rfl

theorem intToStatus_statusToInt (s : CueStatus) : intToStatus (statusToInt s) = s := by
  cases s <;> rfl


/-- The general round-trip computation behind claim C9: reading back the
serialized form of `Cue.mk core children` into a freshly constructed cue of
the same kind reproduces every serialized field (the duration-like fields
under their non-negativity invariant and outside the setters' `0.001`
epsilon around the constructor defaults); the fresh `id` survives, and the
transient `currentPosition` / wait flags revert to the constructor
defaults. -/
theorem fromJson_roundtrip_core (core : CueCore) (children : List Cue)
    (freshId fresh0 now : String)
    (hd0 : 0 ≤ core.duration)
    (hd : core.duration = 5 ∨ |core.duration - 5| > 1 / 1000)
    (hp0 : 0 ≤ core.preWait)
    (hp : core.preWait = 0 ∨ core.preWait > 1 / 1000)
    (hw0 : 0 ≤ core.postWait)
    (hw : core.postWait = 0 ∨ core.postWait > 1 / 1000) :
    Cue.fromJson now (Cue.mk core children).toJson
        (Cue.mk (freshCueCore core.kind freshId fresh0) [])
      = Cue.mk
          { core with
            id := freshId
            currentPosition := 0
            inPreWait := false
            inPostWait := false }
          [] := by
  have hdur : (if |(5 : ℚ) - core.duration| > 1 / 1000 then max 0 core.duration else 5)
      = core.duration := by
    rcases hd with h | h
    · rw [h]
      norm_num
    · rw [if_pos (by rwa [abs_sub_comm] at h), max_eq_right hd0]
  have hpre : (if |(0 : ℚ) - core.preWait| > 1 / 1000 then max 0 core.preWait else 0)
      = core.preWait := by
    rcases hp with h | h
    · rw [h]
      norm_num
    · have h2 : |(0 : ℚ) - core.preWait| > 1 / 1000 := by
        rwa [zero_sub, abs_neg, abs_of_nonneg hp0]
      rw [if_pos h2, max_eq_right hp0]
  have hpost : (if |(0 : ℚ) - core.postWait| > 1 / 1000 then max 0 core.postWait else 0)
      = core.postWait := by
    rcases hw with h | h
    · rw [h]
      norm_num
    · have h2 : |(0 : ℚ) - core.postWait| > 1 / 1000 := by
        rwa [zero_sub, abs_neg, abs_of_nonneg hw0]
      rw [if_pos h2, max_eq_right hw0]
  by_cases hT : core.targetId = "" <;>
    rcases hL : core.lastExecutedTime with _ | le <;>
      by_cases hC : core.customProperties = [] <;>
        · unfold Cue.toJson Cue.fromJson
          simp only [Cue.core, Cue.children, freshCueCore, hT, hL, hC,
            setNumber_eq, setName_eq, setStatus_eq, setArmed_eq, setFlagged_eq,
            setContinueMode_eq, setColor_eq, setNotes_eq, setDuration_eq,
            setPreWait_eq, setPostWait_eq, setTargetId_eq, Cue.withCore,
            intToStatus_statusToInt, if_true, if_false]
          simp only [hdur, hpre, hpost]
          simp [hT, hL, hC]

/-- C9 (amended).  `fromJson(toJson(cue))` on a freshly constructed cue of
the same kind reproduces number, name, status, the flags, color, notes,
duration / preWait / postWait (under the non-negativity invariant and
outside the setters' `0.001` epsilon around the constructor defaults),
targetId, both timestamps, `lastExecutedTime`, and arbitrary custom
properties verbatim; fields absent from the JSON (empty target, invalid
last-execution time, empty property map) fall back to the constructor
defaults.  `id` and `kind` are fixed at construction and never read from
JSON, and the transient progress state (`currentPosition`, wait flags) is
not serialized. -/
theorem toJson_fromJson_reproduces_fields (core : CueCore) (children : List Cue)
    (freshId fresh0 now : String)
    (hd0 : 0 ≤ core.duration)
    (hd : core.duration = 5 ∨ |core.duration - 5| > 1 / 1000)
    (hp0 : 0 ≤ core.preWait)
    (hp : core.preWait = 0 ∨ core.preWait > 1 / 1000)
    (hw0 : 0 ≤ core.postWait)
    (hw : core.postWait = 0 ∨ core.postWait > 1 / 1000) :
    Cue.fromJson now (Cue.mk core children).toJson
        (Cue.mk (freshCueCore core.kind freshId fresh0) [])
      = Cue.mk
          { core with
            id := freshId
            currentPosition := 0
            inPreWait := false
            inPostWait := false }
          [] :=
  fromJson_roundtrip_core core children freshId fresh0 now hd0 hd hp0 hp hw0 hw

/-- Witness for C9 at the concrete `richCue` state. -/
theorem toJson_fromJson_reproduces_fields_witness :
    Cue.fromJson "t9" (Cue.mk richCue.core []).toJson
        (Cue.mk (freshCueCore richCue.core.kind "y" "t5") [])
      = Cue.mk
          { richCue.core with
            id := "y"
            currentPosition := 0
            inPreWait := false
            inPostWait := false }
          [] :=
  toJson_fromJson_reproduces_fields richCue.core [] "y" "t5" "t9"
    (by norm_num [richCue, Cue.core]) (Or.inr (by norm_num [richCue, Cue.core]))
    (by norm_num [richCue, Cue.core]) (Or.inr (by norm_num [richCue, Cue.core]))
    (le_refl 0) (Or.inl rfl)

/-- C9 counterexample.  `fromJson` never reads the `id` field back: the
round-trip of `richCue` (id "x") through a fresh cue keeps the fresh id "y",
so "fromJson(toJson(cue)) reproduces every field" fails at the id. -/
theorem fromJson_does_not_restore_id :
    richRoundTrip.id = "y" ∧ richCue.id = "x" ∧ ("y" : String) ≠ "x" := by
  refine ⟨?_, rfl, by decide⟩
  have h := fromJson_roundtrip_core richCue.core [] "y" "t5" "t9"
    (by norm_num [richCue, Cue.core]) (Or.inr (by norm_num [richCue, Cue.core]))
    (by norm_num [richCue, Cue.core]) (Or.inr (by norm_num [richCue, Cue.core]))
    (le_refl 0) (Or.inl rfl)
  have h2 : richRoundTrip
      = Cue.mk
          { richCue.core with
            id := "y"
            currentPosition := 0
            inPreWait := false
            inPostWait := false }
          [] := h
  rw [h2]
  rfl


/-! # Claim C8 — selection validity and change notification -/

theorem findIn_isSome_iff :
    ∀ (l : List Cue) (x : String), (findIn l x).isSome = true ↔ x ∈ l.map Cue.id
  | [], x => by simp [findIn]
  | c :: rest, x => by
    by_cases h : c.id = x
    · simp [findIn, h]
    · rw [findIn, if_neg h, findIn_isSome_iff rest x]
      simp only [List.map_cons, List.mem_cons]
      constructor
      · exact Or.inr
      · rintro (h' | h')
        · exact absurd h'.symm h
        · exact h'

theorem ensureValidSelection_cues (m : CueManager) :
    (m.ensureValidSelection).1.cues = m.cues := by
  simp only [CueManager.ensureValidSelection]
  split <;> rfl

theorem ensureValidSelection_valid (m : CueManager) :
    ∀ x ∈ (m.ensureValidSelection).1.selectedCueIds, (m.getCue x).isSome = true := by
  simp only [CueManager.ensureValidSelection]
  split
  · intro x hx
    dsimp only at hx
    exact List.of_mem_filter (p := fun cueId => (m.getCue cueId).isSome) hx
  · next hlen =>
    intro x hx
    push_neg at hlen
    have hfil := (List.filter_sublist (l := m.selectedCueIds)
      (p := fun cueId => (m.getCue cueId).isSome)).eq_of_length hlen
    exact List.filter_eq_self.mp hfil x hx

theorem updateStandByCue_cues (m : CueManager) :
    (m.updateStandByCue).1.cues = m.cues := by
  unfold CueManager.updateStandByCue CueManager.setStandByCue
  split
  · split <;> rfl
  · rfl

theorem updateStandByCue_sel (m : CueManager) :
    (m.updateStandByCue).1.selectedCueIds = m.selectedCueIds := by
  unfold CueManager.updateStandByCue CueManager.setStandByCue
  split
  · split <;> rfl
  · rfl

theorem markWorkspaceModified_cues (m : CueManager) :
    (m.markWorkspaceModified).1.cues = m.cues := by
  unfold CueManager.markWorkspaceModified
  split <;> rfl

theorem markWorkspaceModified_sel (m : CueManager) :
    (m.markWorkspaceModified).1.selectedCueIds = m.selectedCueIds := by
  unfold CueManager.markWorkspaceModified
  split <;> rfl

theorem removeCuesLoop_not_removed :
    ∀ (cueIds : List String) (m : CueManager),
      (removeCuesLoop cueIds m).anyRemoved = false → (removeCuesLoop cueIds m).state = m
  | [], m, _ => rfl
  | cueId :: rest, m, h => by
    unfold removeCuesLoop at h ⊢
    revert h
    cases hfind : findPairIn m.cues cueId 0 <;> intro h
    · exact removeCuesLoop_not_removed rest m h
    · exact Bool.noConfusion h

theorem listInsertAt_mem {α : Type} (y : α) :
    ∀ (k : ℕ) (c : α) (l : List α), y ∈ l → y ∈ listInsertAt k c l
  | 0, c, l, hy => List.mem_cons_of_mem c hy
  | _ + 1, c, [], hy => by cases hy
  | k + 1, c, x :: l, hy => by
    rcases List.mem_cons.mp hy with h | h
    · exact h ▸ List.mem_cons_self x _
    · exact List.mem_cons_of_mem x (listInsertAt_mem y k c l h)

/-- C8 (amended).  Selection operations validate against the live top-level
list: `selectCues` stores only ids of listed cues and fires the
selection-changed notification exactly when the validated set differs from
the previous selection; `removeCues` re-validates, so a valid selection stays
valid (only live ids remain afterwards); `addCueAt` preserves validity.  (The
remaining structural mutations do not re-validate, and `removeCues` fires
`selectionChanged` whenever it removed anything, even if the selection is
unchanged.) -/
theorem selection_validated_and_notified (m : CueManager) (cueIds : List String)
    (kind : CueType) (index : ℤ) (opts : CueOptions) (freshId now : String) :
    (∀ x ∈ (m.selectCues cueIds).1.selectedCueIds, x ∈ m.cues.map Cue.id)
      ∧ (Event.selectionChanged ∈ (m.selectCues cueIds).2
          ↔ m.selectedCueIds ≠ cueIds.filter (fun cueId => (m.getCue cueId).isSome))
      ∧ ((∀ x ∈ m.selectedCueIds, x ∈ m.cues.map Cue.id) →
          ∀ x ∈ (m.removeCues cueIds).state.selectedCueIds,
            x ∈ (m.removeCues cueIds).state.cues.map Cue.id)
      ∧ ((∀ x ∈ m.selectedCueIds, x ∈ m.cues.map Cue.id) →
          ∀ x ∈ (m.addCueAt kind index opts freshId now).2.1.selectedCueIds,
            x ∈ (m.addCueAt kind index opts freshId now).2.1.cues.map Cue.id) := by
  refine ⟨?_, ?_, ?_, ?_⟩
  · simp only [CueManager.selectCues]
    split
    · intro x hx
      dsimp only at hx
      exact (findIn_isSome_iff m.cues x).mp
        (List.of_mem_filter (p := fun cueId => (m.getCue cueId).isSome) hx)
    · next hne =>
      push_neg at hne
      intro x hx
      dsimp only at hx
      rw [hne] at hx
      exact (findIn_isSome_iff m.cues x).mp
        (List.of_mem_filter (p := fun cueId => (m.getCue cueId).isSome) hx)
  · simp only [CueManager.selectCues]
    split
    · next hne => simp [hne]
    · next hne =>
      push_neg at hne
      simp [hne]
  · intro hvalid
    simp only [CueManager.removeCues]
    split
    · next hrem =>
      intro x hx
      have h1 := ensureValidSelection_valid
        ((removeCuesLoop cueIds m).state.markWorkspaceModified).1.updateStandByCue.1
        x hx
      rw [CueManager.getCue, findIn_isSome_iff] at h1
      show x ∈ List.map Cue.id
        ((((removeCuesLoop cueIds m).state.markWorkspaceModified).1.updateStandByCue).1.ensureValidSelection).1.cues
      rw [ensureValidSelection_cues]
      exact h1
    · next hrem =>
      push_neg at hrem
      have hrem2 : (removeCuesLoop cueIds m).anyRemoved = false :=
        Bool.eq_false_iff.mpr hrem
      rw [removeCuesLoop_not_removed cueIds m hrem2]
      exact hvalid
  · intro hvalid
    unfold CueManager.addCueAt
    cases hc : createCueOfType kind freshId now with
    | none => exact hvalid
    | some cue0 =>
      intro x hx
      rw [markWorkspaceModified_sel] at hx
      rw [markWorkspaceModified_cues]
      have hx' := hvalid x hx
      rcases List.mem_map.mp hx' with ⟨c, hc1, hc2⟩
      exact hc2 ▸ List.mem_map_of_mem Cue.id (listInsertAt_mem c _ _ _ hc1)

/-- C8 counterexample.  With the valid selection `["a"]` over `[a, b]`,
`removeCues(["b"])` fires `selectionChanged` although the validated selection
(`["a"]` before and after) never changed — refuting "a selection-changed
notification fires only when the validated selection set actually differs
from the previous one". -/
theorem removeCues_notifies_without_selection_change :
    Event.selectionChanged ∈ (selNoiseMgr.removeCues ["b"]).events
      ∧ (selNoiseMgr.removeCues ["b"]).state.selectedCueIds = selNoiseMgr.selectedCueIds
      ∧ selNoiseMgr.selectedCueIds
          = selNoiseMgr.selectedCueIds.filter
              (fun cueId => (selNoiseMgr.getCue cueId).isSome) := by
  refine ⟨by decide, by decide, by decide⟩

/-! # Claim C3 — grouping and ungrouping -/

/-- C3 counterexample.  On `[a,b,c,d,e]`, grouping `["b","d"]` and ungrouping
the result yields `[a,b,d,c,e]`, not the original order `[a,b,c,d,e]`: the
claimed round-trip identity fails for a non-contiguous selection. -/
theorem group_ungroup_not_roundtrip :
    fiveUngrouped.cues.map Cue.id = ["a", "b", "d", "c", "e"]
      ∧ ["a", "b", "d", "c", "e"] ≠ ["a", "b", "c", "d", "e"] := by
  constructor
  · simp only [fiveUngrouped, fiveGrouped, CueManager.createGroupFromCues, fiveMgr_next]
    decide
  · decide

/-- C3 (amended).  `createGroupFromCues(["b","d"])` on `[a,b,c,d,e]` yields
`[a, Group(b,d), c, e]` with the group at the minimum original index and the
children in order; `ungroupCues` splices the children back contiguously at
the group's former position, yielding `[a,b,d,c,e]` (the round-trip is not
the identity for a non-contiguous selection). -/
theorem group_ungroup_concrete :
    (fiveMgr.createGroupFromCues ["b", "d"] "g" "t1").1 = "g"
      ∧ fiveGrouped.cues.map Cue.id = ["a", "g", "c", "e"]
      ∧ (fiveGrouped.getCue "g").map (fun c => c.children.map Cue.id) = some ["b", "d"]
      ∧ (fiveGrouped.getCue "g").map Cue.kind = some CueType.Group
      ∧ (fiveGrouped.ungroupCues "g").1 = true
      ∧ fiveUngrouped.cues.map Cue.id = ["a", "b", "d", "c", "e"] := by
  refine ⟨?_, ?_, ?_, ?_, ?_, ?_⟩ <;>
    · simp only [fiveUngrouped, fiveGrouped, CueManager.createGroupFromCues, fiveMgr_next]
      decide

/-! # Claim C5 — `removeCues` -/

theorem findPairIn_shift (cueId : String) :
    ∀ (l : List Cue) (i : ℕ),
      findPairIn l cueId (i + 1)
        = (findPairIn l cueId i).map (fun p => (p.1, p.2 + 1))
  | [], _ => rfl
  | c :: rest, i => by
    by_cases h : c.id = cueId
    · simp [findPairIn, h]
    · simp only [findPairIn, h, if_neg h]
      exact findPairIn_shift cueId rest (i + 1)

theorem findPairIn_none_iff (cueId : String) :
    ∀ l : List Cue, findPairIn l cueId 0 = none ↔ cueId ∉ l.map Cue.id
  | [] => by simp [findPairIn]
  | c :: rest => by
    by_cases h : c.id = cueId
    · simp [findPairIn, h]
    · rw [findPairIn, if_neg h, findPairIn_shift cueId rest 0]
      constructor
      · intro hnone
        have h0 : findPairIn rest cueId 0 = none := by
          cases hcase : findPairIn rest cueId 0
          · rfl
          · rw [hcase] at hnone
            cases hnone
        have h1 := (findPairIn_none_iff cueId rest).mp h0
        simp only [List.map_cons, List.mem_cons]
        rintro (h2 | h2)
        · exact h h2.symm
        · exact h1 h2
      · intro hni
        have h0 : cueId ∉ rest.map Cue.id := fun hm => hni (by simp [hm])
        rw [(findPairIn_none_iff cueId rest).mpr h0]
        rfl

theorem findPairIn_some_of_mem (cueId : String) :
    ∀ l : List Cue, cueId ∈ l.map Cue.id → ∃ p, findPairIn l cueId 0 = some p := by
  intro l hmem
  cases h : findPairIn l cueId 0 with
  | none => exact absurd hmem ((findPairIn_none_iff cueId l).mp h)
  | some p => exact ⟨p, rfl⟩

theorem findPairIn_props (cueId : String) :
    ∀ (l : List Cue) (c : Cue) (i : ℕ),
      findPairIn l cueId 0 = some (c, i) → c.id = cueId ∧ c ∈ l
  | [], c, i, h => by simp [findPairIn] at h
  | x :: rest, c, i, h => by
    by_cases hx : x.id = cueId
    · rw [findPairIn, if_pos hx] at h
      cases h
      exact ⟨hx, List.mem_cons_self x rest⟩
    · rw [findPairIn, if_neg hx, findPairIn_shift cueId rest 0] at h
      cases hrec : findPairIn rest cueId 0 with
      | none => rw [hrec] at h; cases h
      | some q =>
        rw [hrec] at h
        cases h
        have := findPairIn_props cueId rest q.1 q.2 (by rw [hrec])
        exact ⟨this.1, List.mem_cons_of_mem x this.2⟩

theorem findPairIn_erase (cueId : String) :
    ∀ (l : List Cue) (c : Cue) (i : ℕ),
      (l.map Cue.id).Nodup → findPairIn l cueId 0 = some (c, i) →
        l.eraseIdx i = l.filter (fun d => ¬ (d.id = cueId))
  | [], c, i, _, h => by simp [findPairIn] at h
  | x :: rest, c, i, hnd, h => by
    rw [List.map_cons, List.nodup_cons] at hnd
    by_cases hx : x.id = cueId
    · rw [findPairIn, if_pos hx] at h
      cases h
      show rest = List.filter _ (x :: rest)
      rw [List.filter_cons]
      simp only [hx, decide_not, decide_True, Bool.not_true, Bool.false_eq_true, if_false]
      symm
      rw [List.filter_eq_self]
      intro d hd
      simp only [decide_not, Bool.not_eq_true', decide_eq_false_iff_not]
      intro hdid
      refine hnd.1 ?_
      rw [hx, ← hdid]
      exact List.mem_map_of_mem Cue.id hd
    · rw [findPairIn, if_neg hx, findPairIn_shift cueId rest 0] at h
      cases hrec : findPairIn rest cueId 0 with
      | none => rw [hrec] at h; cases h
      | some q =>
        rw [hrec] at h
        cases h
        show x :: rest.eraseIdx q.2 = List.filter _ (x :: rest)
        rw [List.filter_cons]
        simp only [hx, decide_not, decide_False, Bool.not_false, if_true]
        rw [findPairIn_erase cueId rest q.1 q.2 hnd.2 (by rw [hrec])]
        simp only [decide_not]

theorem nodup_id_unique {l : List Cue} (hnd : (l.map Cue.id).Nodup) :
    ∀ c ∈ l, ∀ d ∈ l, c.id = d.id → c = d := by
  induction l with
  | nil => intro c hc; cases hc
  | cons x rest ih =>
    rw [List.map_cons, List.nodup_cons] at hnd
    intro c hc d hd hid
    rcases List.mem_cons.mp hc with hc1 | hc1 <;> rcases List.mem_cons.mp hd with hd1 | hd1
    · rw [hc1, hd1]
    · subst hc1
      have hmem : c.id ∈ List.map Cue.id rest := by
        rw [hid]
        exact List.mem_map_of_mem Cue.id hd1
      exact absurd hmem hnd.1
    · subst hd1
      have hmem : d.id ∈ List.map Cue.id rest := by
        rw [← hid]
        exact List.mem_map_of_mem Cue.id hc1
      exact absurd hmem hnd.1
    · exact ih hnd.2 c hc1 d hd1 hid


theorem mem_erase_of_ne_id {l : List Cue} {c : Cue} {i : ℕ} {cueId : String}
    (hnd : (l.map Cue.id).Nodup) (hfind : findPairIn l cueId 0 = some (c, i)) :
    ∀ d ∈ l, d.id ≠ cueId → d ∈ l.eraseIdx i := by
  intro d hd hne
  rw [findPairIn_erase cueId l c i hnd hfind]
  rw [List.mem_filter]
  exact ⟨hd, by simpa using hne⟩

theorem not_mem_erase_ids {l : List Cue} {c : Cue} {i : ℕ} {cueId : String}
    (hnd : (l.map Cue.id).Nodup) (hfind : findPairIn l cueId 0 = some (c, i)) :
    cueId ∉ (l.eraseIdx i).map Cue.id := by
  rw [findPairIn_erase cueId l c i hnd hfind]
  intro hmem
  rcases List.mem_map.mp hmem with ⟨d, hd, hdid⟩
  have h2 := (List.mem_filter.mp hd).2
  simp only [decide_not, Bool.not_eq_true', decide_eq_false_iff_not] at h2
  exact h2 hdid

theorem removeCuesLoop_cues_sublist :
    ∀ (cueIds : List String) (m : CueManager),
      (removeCuesLoop cueIds m).state.cues.Sublist m.cues
  | [], _ => List.Sublist.refl _
  | cueId :: rest, m => by
    unfold removeCuesLoop
    cases hfind : findPairIn m.cues cueId 0 with
    | none => exact removeCuesLoop_cues_sublist rest m
    | some p =>
      obtain ⟨cue, index⟩ := p
      exact (removeCuesLoop_cues_sublist rest _).trans
        (List.eraseIdx_sublist m.cues index)

theorem removeCuesLoop_sel_subset :
    ∀ (cueIds : List String) (m : CueManager),
      (removeCuesLoop cueIds m).state.selectedCueIds ⊆ m.selectedCueIds
  | [], _ => fun _ h => h
  | cueId :: rest, m => by
    unfold removeCuesLoop
    cases hfind : findPairIn m.cues cueId 0 with
    | none => exact removeCuesLoop_sel_subset rest m
    | some p =>
      obtain ⟨cue, index⟩ := p
      intro x hx
      have h2 := removeCuesLoop_sel_subset rest _ hx
      exact List.mem_of_mem_filter h2

theorem removeCuesLoop_active_subset :
    ∀ (cueIds : List String) (m : CueManager),
      (removeCuesLoop cueIds m).state.activeCues ⊆ m.activeCues
  | [], _ => fun _ h => h
  | cueId :: rest, m => by
    unfold removeCuesLoop
    cases hfind : findPairIn m.cues cueId 0 with
    | none => exact removeCuesLoop_active_subset rest m
    | some p =>
      obtain ⟨cue, index⟩ := p
      intro x hx
      have h2 := removeCuesLoop_active_subset rest _ hx
      exact List.mem_of_mem_filter h2

theorem removeCuesLoop_standby :
    ∀ (cueIds : List String) (m : CueManager),
      (removeCuesLoop cueIds m).state.standByCueId = m.standByCueId
        ∨ (removeCuesLoop cueIds m).state.standByCueId = ""
  | [], _ => Or.inl rfl
  | cueId :: rest, m => by
    unfold removeCuesLoop
    cases hfind : findPairIn m.cues cueId 0 with
    | none => exact removeCuesLoop_standby rest m
    | some p =>
      obtain ⟨cue, index⟩ := p
      rcases removeCuesLoop_standby rest
          { m with
            selectedCueIds := m.selectedCueIds.filter (fun x => ¬ (x = cueId)),
            standByCueId := if m.standByCueId = cueId then "" else m.standByCueId,
            activeCues := m.activeCues.filter (fun x => ¬ (x = cue.id)),
            cues := m.cues.eraseIdx index } with h | h
      · rw [h]
        dsimp only
        split
        · exact Or.inr rfl
        · exact Or.inl rfl
      · exact Or.inr h

theorem removeCuesLoop_not_in_cues :
    ∀ (cueIds : List String) (m : CueManager),
      (m.cues.map Cue.id).Nodup →
        ∀ cueId ∈ cueIds, cueId ∉ (removeCuesLoop cueIds m).state.cues.map Cue.id
  | [], _, _ => by
    intro cueId h
    cases h
  | x :: rest, m, hnd => by
    intro cueId hmem
    unfold removeCuesLoop
    cases hfind : findPairIn m.cues x 0 with
    | none =>
      rcases List.mem_cons.mp hmem with h1 | h1
      · subst h1
        intro hbad
        exact (findPairIn_none_iff cueId m.cues).mp hfind
          (List.map_subset Cue.id (removeCuesLoop_cues_sublist rest m).subset hbad)
      · exact removeCuesLoop_not_in_cues rest m hnd cueId h1
    | some p =>
      obtain ⟨cue, index⟩ := p
      have hnd2 : ((m.cues.eraseIdx index).map Cue.id).Nodup :=
        (((List.eraseIdx_sublist m.cues index).map Cue.id)).nodup hnd
      rcases List.mem_cons.mp hmem with h1 | h1
      · subst h1
        intro hbad
        exact not_mem_erase_ids hnd hfind
          (List.map_subset Cue.id (removeCuesLoop_cues_sublist rest _).subset hbad)
      · exact removeCuesLoop_not_in_cues rest _ hnd2 cueId h1


theorem removeCuesLoop_sel_evict :
    ∀ (cueIds : List String) (m : CueManager),
      (m.cues.map Cue.id).Nodup →
        ∀ cueId ∈ cueIds, cueId ∈ m.cues.map Cue.id →
          cueId ∉ (removeCuesLoop cueIds m).state.selectedCueIds
  | [], _, _ => by
    intro cueId h
    cases h
  | x :: rest, m, hnd => by
    intro cueId hmem hlive
    unfold removeCuesLoop
    cases hfind : findPairIn m.cues x 0 with
    | none =>
      rcases List.mem_cons.mp hmem with h1 | h1
      · subst h1
        exact absurd hlive ((findPairIn_none_iff cueId m.cues).mp hfind)
      · exact removeCuesLoop_sel_evict rest m hnd cueId h1 hlive
    | some p =>
      obtain ⟨cue, index⟩ := p
      have hnd2 : ((m.cues.eraseIdx index).map Cue.id).Nodup :=
        ((List.eraseIdx_sublist m.cues index).map Cue.id).nodup hnd
      by_cases hcx : cueId = x
      · subst hcx
        intro hbad
        have h2 := removeCuesLoop_sel_subset rest _ hbad
        have h3 := (List.mem_filter.mp h2).2
        simp at h3
      · rcases List.mem_cons.mp hmem with h1 | h1
        · exact absurd h1 hcx
        · rcases List.mem_map.mp hlive with ⟨d, hd, hdid⟩
          have hdmem : d ∈ m.cues.eraseIdx index :=
            mem_erase_of_ne_id hnd hfind d hd (by rw [hdid]; exact hcx)
          exact removeCuesLoop_sel_evict rest _ hnd2 cueId h1
            (hdid ▸ List.mem_map_of_mem Cue.id hdmem)

theorem removeCuesLoop_active_evict :
    ∀ (cueIds : List String) (m : CueManager),
      (m.cues.map Cue.id).Nodup →
        ∀ cueId ∈ cueIds, cueId ∈ m.cues.map Cue.id →
          cueId ∉ (removeCuesLoop cueIds m).state.activeCues
  | [], _, _ => by
    intro cueId h
    cases h
  | x :: rest, m, hnd => by
    intro cueId hmem hlive
    unfold removeCuesLoop
    cases hfind : findPairIn m.cues x 0 with
    | none =>
      rcases List.mem_cons.mp hmem with h1 | h1
      · subst h1
        exact absurd hlive ((findPairIn_none_iff cueId m.cues).mp hfind)
      · exact removeCuesLoop_active_evict rest m hnd cueId h1 hlive
    | some p =>
      obtain ⟨cue, index⟩ := p
      have hnd2 : ((m.cues.eraseIdx index).map Cue.id).Nodup :=
        ((List.eraseIdx_sublist m.cues index).map Cue.id).nodup hnd
      have hcueid : cue.id = x := (findPairIn_props x m.cues cue index hfind).1
      by_cases hcx : cueId = x
      · subst hcx
        intro hbad
        have h2 := removeCuesLoop_active_subset rest _ hbad
        have h3 := (List.mem_filter.mp h2).2
        rw [hcueid] at h3
        simp at h3
      · rcases List.mem_cons.mp hmem with h1 | h1
        · exact absurd h1 hcx
        · rcases List.mem_map.mp hlive with ⟨d, hd, hdid⟩
          have hdmem : d ∈ m.cues.eraseIdx index :=
            mem_erase_of_ne_id hnd hfind d hd (by rw [hdid]; exact hcx)
          exact removeCuesLoop_active_evict rest _ hnd2 cueId h1
            (hdid ▸ List.mem_map_of_mem Cue.id hdmem)

theorem removeCuesLoop_standby_evict :
    ∀ (cueIds : List String) (m : CueManager),
      (m.cues.map Cue.id).Nodup →
        ∀ cueId ∈ cueIds, cueId ∈ m.cues.map Cue.id → cueId ≠ "" →
          (removeCuesLoop cueIds m).state.standByCueId ≠ cueId
  | [], _, _ => by
    intro cueId h
    cases h
  | x :: rest, m, hnd => by
    intro cueId hmem hlive hne
    unfold removeCuesLoop
    cases hfind : findPairIn m.cues x 0 with
    | none =>
      rcases List.mem_cons.mp hmem with h1 | h1
      · subst h1
        exact absurd hlive ((findPairIn_none_iff cueId m.cues).mp hfind)
      · exact removeCuesLoop_standby_evict rest m hnd cueId h1 hlive hne
    | some p =>
      obtain ⟨cue, index⟩ := p
      have hnd2 : ((m.cues.eraseIdx index).map Cue.id).Nodup :=
        ((List.eraseIdx_sublist m.cues index).map Cue.id).nodup hnd
      by_cases hcx : cueId = x
      · subst hcx
        have hstep : (if m.standByCueId = cueId then "" else m.standByCueId) ≠ cueId := by
          split
          · exact fun h => hne h.symm
          · next h => exact h
        rcases removeCuesLoop_standby rest
            { m with
              selectedCueIds := m.selectedCueIds.filter (fun y => ¬ (y = cueId)),
              standByCueId := if m.standByCueId = cueId then "" else m.standByCueId,
              activeCues := m.activeCues.filter (fun y => ¬ (y = cue.id)),
              cues := m.cues.eraseIdx index } with h | h
        · rw [h]
          exact hstep
        · rw [h]
          exact fun hbad => hne hbad.symm
      · rcases List.mem_cons.mp hmem with h1 | h1
        · exact absurd h1 hcx
        · rcases List.mem_map.mp hlive with ⟨d, hd, hdid⟩
          have hdmem : d ∈ m.cues.eraseIdx index :=
            mem_erase_of_ne_id hnd hfind d hd (by rw [hdid]; exact hcx)
          exact removeCuesLoop_standby_evict rest _ hnd2 cueId h1
            (hdid ▸ List.mem_map_of_mem Cue.id hdmem) hne

theorem removeCuesLoop_stops_ids :
    ∀ (cueIds : List String) (m : CueManager) (x : String) (f : ℚ),
      (x, f) ∈ (removeCuesLoop cueIds m).stops → x ∈ m.cues.map Cue.id
  | [], _, _, _ => by
    intro h
    cases h
  | cueId :: rest, m, x, f => by
    intro hmem
    unfold removeCuesLoop at hmem
    revert hmem
    cases hfind : findPairIn m.cues cueId 0 with
    | none => exact fun hmem => removeCuesLoop_stops_ids rest m x f hmem
    | some p =>
      obtain ⟨cue, index⟩ := p
      intro hmem
      have hcue := findPairIn_props cueId m.cues cue index hfind
      rcases List.mem_append.mp hmem with h1 | h1
      · by_cases hex : cue.isExecuting = true
        · rw [if_pos hex] at h1
          rcases List.mem_singleton.mp h1 with h2
          have : x = cue.id := congrArg Prod.fst h2
          exact this ▸ List.mem_map_of_mem Cue.id hcue.2
        · rw [if_neg hex] at h1
          cases h1
      · have h2 := removeCuesLoop_stops_ids rest _ x f h1
        have h3 := List.map_subset Cue.id (List.eraseIdx_sublist m.cues index).subset
        exact h3 h2

theorem removeCuesLoop_stops_iff :
    ∀ (cueIds : List String) (m : CueManager),
      (m.cues.map Cue.id).Nodup →
        ∀ c ∈ m.cues, c.id ∈ cueIds →
          ((c.id, (0 : ℚ)) ∈ (removeCuesLoop cueIds m).stops ↔ c.isExecuting = true)
  | [], _, _ => by
    intro c _ h
    cases h
  | x :: rest, m, hnd => by
    intro c hc hmem
    unfold removeCuesLoop
    cases hfind : findPairIn m.cues x 0 with
    | none =>
      rcases List.mem_cons.mp hmem with h1 | h1
      · exact absurd (h1 ▸ List.mem_map_of_mem Cue.id hc)
          ((findPairIn_none_iff x m.cues).mp hfind)
      · exact removeCuesLoop_stops_iff rest m hnd c hc h1
    | some p =>
      obtain ⟨cue, index⟩ := p
      have hnd2 : ((m.cues.eraseIdx index).map Cue.id).Nodup :=
        ((List.eraseIdx_sublist m.cues index).map Cue.id).nodup hnd
      have hcue := findPairIn_props x m.cues cue index hfind
      by_cases hcx : c.id = x
      · have hceq : cue = c := nodup_id_unique hnd cue hcue.2 c hc (by rw [hcue.1, hcx])
        subst hceq
        constructor
        · intro hin
          by_contra hnex
          rw [Bool.not_eq_true] at hnex
          rcases List.mem_append.mp hin with h1 | h1
          · rw [hnex] at h1
            simp at h1
          · have h2 := removeCuesLoop_stops_ids rest _ cue.id 0 h1
            exact not_mem_erase_ids hnd hfind (hcue.1 ▸ h2)
        · intro hex
          apply List.mem_append.mpr
          left
          rw [if_pos hex]
          exact List.mem_singleton.mpr rfl
      · rcases List.mem_cons.mp hmem with h1 | h1
        · exact absurd h1 hcx
        · have hcmem : c ∈ m.cues.eraseIdx index :=
            mem_erase_of_ne_id hnd hfind c hc hcx
          have hiff := removeCuesLoop_stops_iff rest
            { m with
              selectedCueIds := m.selectedCueIds.filter (fun y => ¬ (y = x)),
              standByCueId := if m.standByCueId = x then "" else m.standByCueId,
              activeCues := m.activeCues.filter (fun y => ¬ (y = cue.id)),
              cues := m.cues.eraseIdx index } hnd2 c hcmem h1
          constructor
          · intro hin
            rcases List.mem_append.mp hin with h2 | h2
            · by_cases hex : cue.isExecuting = true
              · rw [if_pos hex] at h2
                have h3 : c.id = cue.id := congrArg Prod.fst (List.mem_singleton.mp h2)
                exact absurd (h3.trans hcue.1) hcx
              · rw [if_neg hex] at h2
                cases h2
            · exact hiff.mp h2
          · intro hex
            exact List.mem_append.mpr (Or.inr (hiff.mpr hex))

theorem removeCuesLoop_all_missing :
    ∀ (cueIds : List String) (m : CueManager),
      (∀ cueId ∈ cueIds, cueId ∉ m.cues.map Cue.id) →
        removeCuesLoop cueIds m = ⟨m, [], [], false⟩
  | [], _, _ => rfl
  | x :: rest, m, h => by
    unfold removeCuesLoop
    rw [(findPairIn_none_iff x m.cues).mpr (h x (List.mem_cons_self x rest))]
    exact removeCuesLoop_all_missing rest m
      (fun cueId hmem => h cueId (List.mem_cons_of_mem x hmem))

theorem ensureValidSelection_sel_subset (m : CueManager) :
    (m.ensureValidSelection).1.selectedCueIds ⊆ m.selectedCueIds := by
  simp only [CueManager.ensureValidSelection]
  split
  · intro x hx
    dsimp only at hx
    exact List.mem_of_mem_filter hx
  · exact fun x hx => hx

theorem ensureValidSelection_standby (m : CueManager) :
    (m.ensureValidSelection).1.standByCueId = m.standByCueId := by
  simp only [CueManager.ensureValidSelection]
  split <;> rfl

theorem ensureValidSelection_active (m : CueManager) :
    (m.ensureValidSelection).1.activeCues = m.activeCues := by
  simp only [CueManager.ensureValidSelection]
  split <;> rfl

theorem updateStandByCue_active (m : CueManager) :
    (m.updateStandByCue).1.activeCues = m.activeCues := by
  unfold CueManager.updateStandByCue CueManager.setStandByCue
  split
  · split <;> rfl
  · rfl

theorem markWorkspaceModified_active (m : CueManager) :
    (m.markWorkspaceModified).1.activeCues = m.activeCues := by
  unfold CueManager.markWorkspaceModified
  split <;> rfl

theorem markWorkspaceModified_standby (m : CueManager) :
    (m.markWorkspaceModified).1.standByCueId = m.standByCueId := by
  unfold CueManager.markWorkspaceModified
  split <;> rfl

theorem updateStandByCue_standby (m : CueManager) :
    (m.updateStandByCue).1.standByCueId = m.standByCueId
      ∨ (m.updateStandByCue).1.standByCueId = m.findNextExecutableCue "" := by
  unfold CueManager.updateStandByCue CueManager.setStandByCue
  split
  · split
    · exact Or.inr rfl
    · next h =>
      push_neg at h
      exact Or.inr h
  · exact Or.inl rfl

theorem firstExecutableIn_cases :
    ∀ l : List Cue, firstExecutableIn l = "" ∨ firstExecutableIn l ∈ l.map Cue.id
  | [] => Or.inl rfl
  | c :: rest => by
    unfold firstExecutableIn
    split
    · exact Or.inr (List.mem_cons_self c.id _)
    · rcases firstExecutableIn_cases rest with h | h
      · exact Or.inl h
      · exact Or.inr (List.mem_cons_of_mem _ h)

theorem findNextExecutableCue_cases (m : CueManager) :
    m.findNextExecutableCue "" = "" ∨ m.findNextExecutableCue "" ∈ m.cues.map Cue.id := by
  unfold CueManager.findNextExecutableCue
  simp only [if_pos rfl, List.drop_zero]
  exact firstExecutableIn_cases m.cues


theorem removeCues_glue (cueIds : List String) (m : CueManager) :
    (m.removeCues cueIds).state.cues = (removeCuesLoop cueIds m).state.cues
      ∧ (m.removeCues cueIds).state.selectedCueIds
          ⊆ (removeCuesLoop cueIds m).state.selectedCueIds
      ∧ (m.removeCues cueIds).state.activeCues = (removeCuesLoop cueIds m).state.activeCues
      ∧ (m.removeCues cueIds).stops = (removeCuesLoop cueIds m).stops
      ∧ ((m.removeCues cueIds).state.standByCueId
            = (removeCuesLoop cueIds m).state.standByCueId
          ∨ (m.removeCues cueIds).state.standByCueId = ""
          ∨ (m.removeCues cueIds).state.standByCueId
              ∈ (removeCuesLoop cueIds m).state.cues.map Cue.id) := by
  simp only [CueManager.removeCues]
  split
  · refine ⟨?_, ?_, ?_, rfl, ?_⟩
    · show ((((removeCuesLoop cueIds m).state.markWorkspaceModified).1.updateStandByCue).1.ensureValidSelection).1.cues
        = (removeCuesLoop cueIds m).state.cues
      rw [ensureValidSelection_cues, updateStandByCue_cues, markWorkspaceModified_cues]
    · intro x hx
      have h1 := ensureValidSelection_sel_subset
        (((removeCuesLoop cueIds m).state.markWorkspaceModified).1.updateStandByCue).1 hx
      rw [updateStandByCue_sel, markWorkspaceModified_sel] at h1
      exact h1
    · show ((((removeCuesLoop cueIds m).state.markWorkspaceModified).1.updateStandByCue).1.ensureValidSelection).1.activeCues
        = (removeCuesLoop cueIds m).state.activeCues
      rw [ensureValidSelection_active, updateStandByCue_active, markWorkspaceModified_active]
    · show ((((removeCuesLoop cueIds m).state.markWorkspaceModified).1.updateStandByCue).1.ensureValidSelection).1.standByCueId
          = (removeCuesLoop cueIds m).state.standByCueId
        ∨ ((((removeCuesLoop cueIds m).state.markWorkspaceModified).1.updateStandByCue).1.ensureValidSelection).1.standByCueId
            = ""
        ∨ ((((removeCuesLoop cueIds m).state.markWorkspaceModified).1.updateStandByCue).1.ensureValidSelection).1.standByCueId
            ∈ (removeCuesLoop cueIds m).state.cues.map Cue.id
      rw [ensureValidSelection_standby]
      rcases updateStandByCue_standby
          ((removeCuesLoop cueIds m).state.markWorkspaceModified).1 with h | h
      · rw [h, markWorkspaceModified_standby]
        exact Or.inl rfl
      · rw [h]
        rcases findNextExecutableCue_cases
            ((removeCuesLoop cueIds m).state.markWorkspaceModified).1 with h2 | h2
        · exact Or.inr (Or.inl h2)
        · rw [markWorkspaceModified_cues] at h2
          exact Or.inr (Or.inr h2)
  · exact ⟨rfl, fun x hx => hx, rfl, rfl, Or.inl rfl⟩

/-- C5.  For every id list: each id that is in the (duplicate-free) list of
live cue ids ends up evicted from the cue list, from the selection, from the
standby pointer and from the active-cue set; each found cue received a
`stop()` call exactly when it was executing at removal time; and when no id
resolves at all the call is a silent no-op returning `false` with no state
change, no events and no stop calls. -/
theorem removeCues_spec (m : CueManager) (cueIds : List String)
    (hnd : (m.cues.map Cue.id).Nodup)
    (hne : "" ∉ m.cues.map Cue.id) :
    (∀ cueId ∈ cueIds, cueId ∉ (m.removeCues cueIds).state.cues.map Cue.id)
      ∧ (∀ cueId ∈ cueIds, cueId ∈ m.cues.map Cue.id →
          cueId ∉ (m.removeCues cueIds).state.selectedCueIds
            ∧ (m.removeCues cueIds).state.standByCueId ≠ cueId
            ∧ cueId ∉ (m.removeCues cueIds).state.activeCues)
      ∧ (∀ c ∈ m.cues, c.id ∈ cueIds →
          ((c.id, (0 : ℚ)) ∈ (m.removeCues cueIds).stops ↔ c.isExecuting = true))
      ∧ ((∀ cueId ∈ cueIds, cueId ∉ m.cues.map Cue.id) →
          m.removeCues cueIds = ⟨m, [], [], false⟩) := by
  obtain ⟨hcues, hsel, hact, hstops, hsb⟩ := removeCues_glue cueIds m
  refine ⟨?_, ?_, ?_, ?_⟩
  · intro cueId hmem
    rw [hcues]
    exact removeCuesLoop_not_in_cues cueIds m hnd cueId hmem
  · intro cueId hmem hlive
    have hneid : cueId ≠ "" := fun h => hne (h ▸ hlive)
    refine ⟨?_, ?_, ?_⟩
    · intro hbad
      exact removeCuesLoop_sel_evict cueIds m hnd cueId hmem hlive (hsel hbad)
    · rcases hsb with h | h | h
      · rw [h]
        exact removeCuesLoop_standby_evict cueIds m hnd cueId hmem hlive hneid
      · rw [h]
        exact fun hb => hneid hb.symm
      · intro hb
        rw [hb] at h
        exact removeCuesLoop_not_in_cues cueIds m hnd cueId hmem h
    · intro hbad
      rw [hact] at hbad
      exact removeCuesLoop_active_evict cueIds m hnd cueId hmem hlive hbad
  · intro c hc hmem
    rw [hstops]
    exact removeCuesLoop_stops_iff cueIds m hnd c hc hmem
  · intro hmiss
    have hloop := removeCuesLoop_all_missing cueIds m hmiss
    simp only [CueManager.removeCues, hloop]
    rfl

/-- Witness for C5 on a concrete state: `a` is executing, selected, on
standby and cached active; removing `["a","z"]` (with `z` absent). -/
theorem removeCues_spec_witness :
    (∀ cueId ∈ ["a", "z"],
        cueId ∉ (runningMgr.removeCues ["a", "z"]).state.cues.map Cue.id)
      ∧ (∀ cueId ∈ ["a", "z"], cueId ∈ runningMgr.cues.map Cue.id →
          cueId ∉ (runningMgr.removeCues ["a", "z"]).state.selectedCueIds
            ∧ (runningMgr.removeCues ["a", "z"]).state.standByCueId ≠ cueId
            ∧ cueId ∉ (runningMgr.removeCues ["a", "z"]).state.activeCues)
      ∧ (∀ c ∈ runningMgr.cues, c.id ∈ ["a", "z"] →
          ((c.id, (0 : ℚ)) ∈ (runningMgr.removeCues ["a", "z"]).stops
            ↔ c.isExecuting = true))
      ∧ ((∀ cueId ∈ ["a", "z"], cueId ∉ runningMgr.cues.map Cue.id) →
          runningMgr.removeCues ["a", "z"] = ⟨runningMgr, [], [], false⟩) :=
  removeCues_spec runningMgr ["a", "z"] (by decide) (by decide)


/-! # Claim C6 — `moveCues` -/

theorem findPairIn_get (cueId : String) :
    ∀ (l : List Cue) (c : Cue) (i : ℕ),
      findPairIn l cueId 0 = some (c, i) → l.get? i = some c
  | [], c, i, h => by simp [findPairIn] at h
  | x :: rest, c, i, h => by
    by_cases hx : x.id = cueId
    · rw [findPairIn, if_pos hx] at h
      cases h
      rfl
    · rw [findPairIn, if_neg hx, findPairIn_shift cueId rest 0] at h
      cases hrec : findPairIn rest cueId 0 with
      | none =>
        rw [hrec] at h
        cases h
      | some q =>
        rw [hrec] at h
        cases h
        exact findPairIn_get cueId rest q.1 q.2 (by rw [hrec])

theorem get_findPairIn :
    ∀ (l : List Cue), (l.map Cue.id).Nodup →
      ∀ (c : Cue) (i : ℕ), l.get? i = some c →
        findPairIn l c.id 0 = some (c, i)
  | [], _, c, i, h => by simp at h
  | x :: rest, hnd, c, i, hget => by
    rw [List.map_cons, List.nodup_cons] at hnd
    cases i with
    | zero =>
      have hxc : x = c := Option.some.inj hget
      subst hxc
      rw [findPairIn, if_pos rfl]
    | succ j =>
      have hget' : rest.get? j = some c := hget
      have hcmem : c ∈ rest := List.get?_mem hget'
      have hx : ¬ x.id = c.id := by
        intro hbad
        exact hnd.1 (hbad ▸ List.mem_map_of_mem Cue.id hcmem)
      rw [findPairIn, if_neg hx, findPairIn_shift c.id rest 0,
        get_findPairIn rest hnd.2 c j hget']
      rfl

theorem ascPairs_shift (P : Cue → Bool) :
    ∀ (l : List Cue) (i : ℕ),
      ascPairs P l (i + 1) = (ascPairs P l i).map (fun p => (p.1, p.2 + 1))
  | [], _ => rfl
  | c :: rest, i => by
    rw [ascPairs, ascPairs]
    by_cases hc : P c
    · rw [if_pos hc, if_pos hc, List.map_cons, ascPairs_shift P rest (i + 1)]
    · rw [if_neg hc, if_neg hc, ascPairs_shift P rest (i + 1)]

theorem ascPairs_key_lb (P : Cue → Bool) :
    ∀ (l : List Cue) (i : ℕ), ∀ p ∈ ascPairs P l i, i ≤ p.2
  | [], _ => by
    intro p hp
    cases hp
  | c :: rest, i => by
    intro p hp
    rw [ascPairs] at hp
    by_cases hc : P c
    · rw [if_pos hc] at hp
      rcases List.mem_cons.mp hp with h1 | h1
      · rw [h1]
      · exact Nat.le_of_succ_le (ascPairs_key_lb P rest (i + 1) p h1)
    · rw [if_neg hc] at hp
      exact Nat.le_of_succ_le (ascPairs_key_lb P rest (i + 1) p hp)

theorem ascPairs_key_ub (P : Cue → Bool) :
    ∀ (l : List Cue) (i : ℕ), ∀ p ∈ ascPairs P l i, p.2 < i + l.length
  | [], _ => by
    intro p hp
    cases hp
  | c :: rest, i => by
    intro p hp
    rw [ascPairs] at hp
    by_cases hc : P c
    · rw [if_pos hc] at hp
      rcases List.mem_cons.mp hp with h1 | h1
      · rw [h1]
        simp
      · have h2 := ascPairs_key_ub P rest (i + 1) p h1
        simp only [List.length_cons]
        omega
    · rw [if_neg hc] at hp
      have h2 := ascPairs_key_ub P rest (i + 1) p hp
      simp only [List.length_cons]
      omega

theorem ascPairs_pairwise (P : Cue → Bool) :
    ∀ (l : List Cue) (i : ℕ),
      List.Pairwise (fun p q : Cue × ℕ => p.2 < q.2) (ascPairs P l i)
  | [], _ => List.Pairwise.nil
  | c :: rest, i => by
    rw [ascPairs]
    by_cases hc : P c
    · rw [if_pos hc]
      refine List.Pairwise.cons ?_ (ascPairs_pairwise P rest (i + 1))
      intro q hq
      exact Nat.lt_of_succ_le (ascPairs_key_lb P rest (i + 1) q hq)
    · rw [if_neg hc]
      exact ascPairs_pairwise P rest (i + 1)

theorem ascPairs_mem (P : Cue → Bool) :
    ∀ (l : List Cue) (c : Cue) (i : ℕ),
      (c, i) ∈ ascPairs P l 0 ↔ l.get? i = some c ∧ P c = true
  | [], c, i => by simp [ascPairs]
  | x :: rest, c, i => by
    rw [ascPairs]
    by_cases hx : P x
    · rw [if_pos hx, ascPairs_shift P rest 0]
      cases i with
      | zero =>
        constructor
        · intro hp
          rcases List.mem_cons.mp hp with h1 | h1
          · obtain ⟨h2, h3⟩ := Prod.mk.injEq .. ▸ h1
            subst h2
            exact ⟨rfl, hx⟩
          · rcases List.mem_map.mp h1 with ⟨q, _, hq2⟩
            have := congrArg Prod.snd hq2
            simp at this
        · rintro ⟨hget, _⟩
          have hxc : x = c := Option.some.inj hget
          subst hxc
          exact List.mem_cons_self _ _
      | succ j =>
        constructor
        · intro hp
          rcases List.mem_cons.mp hp with h1 | h1
          · have := congrArg Prod.snd h1
            simp at this
          · rcases List.mem_map.mp h1 with ⟨q, hq, hq2⟩
            have hq1 : q.1 = c := congrArg Prod.fst hq2
            have hq2' : q.2 = j := by
              have := congrArg Prod.snd hq2
              simpa using this
            have hmem : (c, j) ∈ ascPairs P rest 0 := by
              rw [← hq1, ← hq2']
              exact hq
            exact (ascPairs_mem P rest c j).mp hmem
        · rintro ⟨hget, hP⟩
          apply List.mem_cons_of_mem
          apply List.mem_map.mpr
          exact ⟨(c, j), (ascPairs_mem P rest c j).mpr ⟨hget, hP⟩, rfl⟩
    · rw [if_neg hx, ascPairs_shift P rest 0]
      cases i with
      | zero =>
        constructor
        · intro hp
          rcases List.mem_map.mp hp with ⟨q, _, hq2⟩
          have := congrArg Prod.snd hq2
          simp at this
        · rintro ⟨hget, hP⟩
          have hxc : x = c := Option.some.inj hget
          subst hxc
          exact absurd hP hx
      | succ j =>
        constructor
        · intro hp
          rcases List.mem_map.mp hp with ⟨q, hq, hq2⟩
          have hq1 : q.1 = c := congrArg Prod.fst hq2
          have hq2' : q.2 = j := by
            have := congrArg Prod.snd hq2
            simpa using this
          have hmem : (c, j) ∈ ascPairs P rest 0 := by
            rw [← hq1, ← hq2']
            exact hq
          exact (ascPairs_mem P rest c j).mp hmem
        · rintro ⟨hget, hP⟩
          apply List.mem_map.mpr
          exact ⟨(c, j), (ascPairs_mem P rest c j).mpr ⟨hget, hP⟩, rfl⟩

theorem findPairIn_id (cueId : String) :
    ∀ (l : List Cue) (p : Cue × ℕ) (i : ℕ), findPairIn l cueId i = some p → p.1.id = cueId
  | [], p, i, h => Option.noConfusion h
  | c :: rest, p, i, h => by
    by_cases hc : c.id = cueId
    · rw [findPairIn, if_pos hc] at h
      cases h
      exact hc
    · rw [findPairIn, if_neg hc] at h
      exact findPairIn_id cueId rest p (i + 1) h

theorem collectPairs_mem (cues : List Cue) :
    ∀ (cueIds : List String) (p : Cue × ℕ),
      p ∈ collectPairs cues cueIds ↔ ∃ cueId ∈ cueIds, findPairIn cues cueId 0 = some p
  | [], p => by simp [collectPairs]
  | cueId :: rest, p => by
    rw [collectPairs]
    cases hfind : findPairIn cues cueId 0 with
    | none =>
      rw [collectPairs_mem cues rest p]
      constructor
      · rintro ⟨id2, h1, h2⟩
        exact ⟨id2, List.mem_cons_of_mem _ h1, h2⟩
      · rintro ⟨id2, h1, h2⟩
        rcases List.mem_cons.mp h1 with h3 | h3
        · subst h3
          rw [hfind] at h2
          cases h2
        · exact ⟨id2, h3, h2⟩
    | some q =>
      rw [List.mem_cons, collectPairs_mem cues rest p]
      constructor
      · rintro (h1 | ⟨id2, h2, h3⟩)
        · exact ⟨cueId, List.mem_cons_self _ _, by rw [hfind, h1]⟩
        · exact ⟨id2, List.mem_cons_of_mem _ h2, h3⟩
      · rintro ⟨id2, h2, h3⟩
        rcases List.mem_cons.mp h2 with h4 | h4
        · subst h4
          rw [hfind] at h3
          exact Or.inl (Option.some.inj h3).symm
        · exact Or.inr ⟨id2, h4, h3⟩

theorem collectPairs_char (cues : List Cue) (hnd : (cues.map Cue.id).Nodup)
    (cueIds : List String) (p : Cue × ℕ) :
    p ∈ collectPairs cues cueIds ↔ cues.get? p.2 = some p.1 ∧ p.1.id ∈ cueIds := by
  rw [collectPairs_mem]
  constructor
  · rintro ⟨cueId, hid, hfind⟩
    exact ⟨findPairIn_get cueId cues p.1 p.2 hfind,
      (findPairIn_id cueId cues p 0 hfind).symm ▸ hid⟩
  · rintro ⟨hget, hid⟩
    exact ⟨p.1.id, hid, get_findPairIn cues hnd p.1 p.2 hget⟩

theorem collectPairs_keys_nodup (cues : List Cue) (hnd : (cues.map Cue.id).Nodup) :
    ∀ (cueIds : List String), cueIds.Nodup →
      ((collectPairs cues cueIds).map Prod.snd).Nodup
  | [], _ => by simp [collectPairs]
  | cueId :: rest, hnodup => by
    rw [List.nodup_cons] at hnodup
    rw [collectPairs]
    cases hfind : findPairIn cues cueId 0 with
    | none => exact collectPairs_keys_nodup cues hnd rest hnodup.2
    | some p =>
      rw [List.map_cons, List.nodup_cons]
      refine ⟨?_, collectPairs_keys_nodup cues hnd rest hnodup.2⟩
      intro hmem
      rcases List.mem_map.mp hmem with ⟨q, hq, hq2⟩
      rcases (collectPairs_mem cues rest q).mp hq with ⟨id2, hid2, hfind2⟩
      have hp1 : cues.get? p.2 = some p.1 := findPairIn_get cueId cues p.1 p.2 hfind
      have hq1 : cues.get? q.2 = some q.1 := findPairIn_get id2 cues q.1 q.2 hfind2
      have hpid : p.1.id = cueId := findPairIn_id cueId cues p 0 hfind
      have hqid : q.1.id = id2 := findPairIn_id id2 cues q 0 hfind2
      rw [hq2] at hq1
      have hsame : q.1 = p.1 := Option.some.inj (hq1.symm.trans hp1)
      exact hnodup.1 (by rw [← hpid, ← hsame, hqid]; exact hid2)

theorem collectPairs_eq_nil (cues : List Cue) :
    ∀ cueIds : List String, (∀ c ∈ cues, c.id ∉ cueIds) → collectPairs cues cueIds = []
  | [], _ => rfl
  | cueId :: rest, h => by
    rw [collectPairs]
    have hnone : findPairIn cues cueId 0 = none :=
      (findPairIn_none_iff cueId cues).mpr (by
        intro hmem
        rcases List.mem_map.mp hmem with ⟨c, hc, hcid⟩
        exact h c hc (by rw [hcid]; exact List.mem_cons_self _ _))
    rw [hnone]
    exact collectPairs_eq_nil cues rest (fun c hc hmem => h c hc (List.mem_cons_of_mem _ hmem))

theorem insertDescPair_perm (p : Cue × ℕ) :
    ∀ l : List (Cue × ℕ), (insertDescPair p l).Perm (p :: l)
  | [] => List.Perm.refl _
  | q :: rest => by
    rw [insertDescPair]
    by_cases h : p.2 > q.2
    · rw [if_pos h]
    · rw [if_neg h]
      exact ((insertDescPair_perm p rest).cons q).trans (List.Perm.swap p q rest)

theorem sortPairsDesc_perm : ∀ l : List (Cue × ℕ), (sortPairsDesc l).Perm l
  | [] => List.Perm.refl _
  | p :: rest =>
    (insertDescPair_perm p (sortPairsDesc rest)).trans ((sortPairsDesc_perm rest).cons p)

theorem insertDescPair_sorted (p : Cue × ℕ) :
    ∀ l : List (Cue × ℕ), List.Pairwise (fun a b : Cue × ℕ => b.2 ≤ a.2) l →
      List.Pairwise (fun a b : Cue × ℕ => b.2 ≤ a.2) (insertDescPair p l)
  | [], _ => List.Pairwise.cons (fun b hb => absurd hb (List.not_mem_nil b)) List.Pairwise.nil
  | q :: rest, hs => by
    rw [List.pairwise_cons] at hs
    rw [insertDescPair]
    by_cases h : p.2 > q.2
    · rw [if_pos h]
      refine List.Pairwise.cons ?_ (List.Pairwise.cons hs.1 hs.2)
      intro b hb
      rcases List.mem_cons.mp hb with h1 | h1
      · rw [h1]
        exact Nat.le_of_lt h
      · exact Nat.le_of_lt (Nat.lt_of_le_of_lt (hs.1 b h1) h)
    · rw [if_neg h]
      refine List.Pairwise.cons ?_ (insertDescPair_sorted p rest hs.2)
      intro b hb
      rcases List.mem_cons.mp ((insertDescPair_perm p rest).mem_iff.mp hb) with h1 | h1
      · rw [h1]
        exact Nat.le_of_not_lt h
      · exact hs.1 b h1

theorem sortPairsDesc_sorted : ∀ l : List (Cue × ℕ),
    List.Pairwise (fun a b : Cue × ℕ => b.2 ≤ a.2) (sortPairsDesc l)
  | [] => List.Pairwise.nil
  | p :: rest => insertDescPair_sorted p (sortPairsDesc rest) (sortPairsDesc_sorted rest)

theorem sorted_strict_of_keys_nodup (l : List (Cue × ℕ))
    (hs : List.Pairwise (fun a b : Cue × ℕ => b.2 ≤ a.2) l)
    (hnd : (l.map Prod.snd).Nodup) :
    List.Pairwise (fun a b : Cue × ℕ => b.2 < a.2) l := by
  have hne : List.Pairwise (fun a b : Cue × ℕ => a.2 ≠ b.2) l := List.pairwise_map.mp hnd
  exact List.Pairwise.imp
    (fun h => Nat.lt_of_le_of_ne h.1 (Ne.symm h.2)) (hs.and hne)

theorem descPairs_sorted (P : Cue → Bool) (l : List Cue) :
    List.Pairwise (fun a b : Cue × ℕ => b.2 < a.2) (descPairs P l) := by
  rw [descPairs, List.pairwise_reverse]
  exact ascPairs_pairwise P l 0

theorem sortPairsDesc_collect_eq_descPairs (cues : List Cue) (cueIds : List String)
    (hcnd : (cues.map Cue.id).Nodup) (hidnd : cueIds.Nodup) :
    sortPairsDesc (collectPairs cues cueIds)
      = descPairs (fun c => decide (c.id ∈ cueIds)) cues := by
  haveI : IsAntisymm (Cue × ℕ) (fun a b : Cue × ℕ => b.2 < a.2) :=
    ⟨fun a b h1 h2 => absurd h1 (Nat.lt_asymm h2)⟩
  have hknd : ((collectPairs cues cueIds).map Prod.snd).Nodup :=
    collectPairs_keys_nodup cues hcnd cueIds hidnd
  have hcolnd : (collectPairs cues cueIds).Nodup := List.Nodup.of_map Prod.snd hknd
  have hsortnd : (sortPairsDesc (collectPairs cues cueIds)).Nodup :=
    (sortPairsDesc_perm _).nodup_iff.mpr hcolnd
  have hdescnd : (descPairs (fun c => decide (c.id ∈ cueIds)) cues).Nodup := by
    refine List.Pairwise.imp ?_ (descPairs_sorted _ cues)
    intro a b h e
    rw [e] at h
    exact Nat.lt_irrefl _ h
  have hperm : (sortPairsDesc (collectPairs cues cueIds)).Perm
      (descPairs (fun c => decide (c.id ∈ cueIds)) cues) := by
    rw [List.perm_ext_iff_of_nodup hsortnd hdescnd]
    intro p
    constructor
    · intro hp
      have hc := (collectPairs_char cues hcnd cueIds p).mp ((sortPairsDesc_perm _).mem_iff.mp hp)
      rw [descPairs, List.mem_reverse]
      exact (ascPairs_mem _ cues p.1 p.2).mpr ⟨hc.1, decide_eq_true hc.2⟩
    · intro hp
      rw [descPairs, List.mem_reverse] at hp
      have h2 := (ascPairs_mem (fun c => decide (c.id ∈ cueIds)) cues p.1 p.2).mp hp
      exact (sortPairsDesc_perm _).mem_iff.mpr
        ((collectPairs_char cues hcnd cueIds p).mpr ⟨h2.1, of_decide_eq_true h2.2⟩)
  have hkeys2 : ((sortPairsDesc (collectPairs cues cueIds)).map Prod.snd).Nodup :=
    (((sortPairsDesc_perm (collectPairs cues cueIds)).map Prod.snd).nodup_iff).mpr hknd
  exact List.eq_of_perm_of_sorted hperm
    (sorted_strict_of_keys_nodup _ (sortPairsDesc_sorted _) hkeys2)
    (descPairs_sorted _ cues)

theorem removeMovePhase_shift (c : Cue) :
    ∀ (pairs : List (Cue × ℕ)) (cues acc : List Cue),
      removeMovePhase (pairs.map (fun p => (p.1, p.2 + 1))) (c :: cues) acc
        = (c :: (removeMovePhase pairs cues acc).1, (removeMovePhase pairs cues acc).2)
  | [], cues, acc => rfl
  | p :: rest, cues, acc => by
    rw [List.map_cons]
    simp only [removeMovePhase]
    exact removeMovePhase_shift c rest (cues.eraseIdx p.2) (p.1 :: acc)

theorem removeMovePhase_append_last :
    ∀ (pairs : List (Cue × ℕ)) (p : Cue × ℕ) (cues acc : List Cue),
      removeMovePhase (pairs ++ [p]) cues acc
        = ((removeMovePhase pairs cues acc).1.eraseIdx p.2,
           p.1 :: (removeMovePhase pairs cues acc).2)
  | [], p, cues, acc => rfl
  | q :: rest, p, cues, acc => by
    rw [List.cons_append]
    simp only [removeMovePhase]
    exact removeMovePhase_append_last rest p (cues.eraseIdx q.2) (q.1 :: acc)

theorem removeMovePhase_descPairs (P : Cue → Bool) :
    ∀ (l acc : List Cue),
      removeMovePhase (descPairs P l) l acc
        = (l.filter (fun x => !P x), l.filter P ++ acc)
  | [], acc => rfl
  | c :: rest, acc => by
    by_cases hc : P c = true
    · have h1 : descPairs P (c :: rest)
          = (descPairs P rest).map (fun p => (p.1, p.2 + 1)) ++ [((c : Cue), (0 : ℕ))] := by
        rw [descPairs, ascPairs, if_pos hc, ascPairs_shift P rest 0, List.reverse_cons,
          ← List.map_reverse, ← descPairs]
      rw [h1, removeMovePhase_append_last, removeMovePhase_shift c (descPairs P rest) rest acc,
        removeMovePhase_descPairs P rest acc]
      simp [List.filter_cons, hc]
    · have h1 : descPairs P (c :: rest)
          = (descPairs P rest).map (fun p => (p.1, p.2 + 1)) := by
        rw [descPairs, ascPairs, if_neg hc, ascPairs_shift P rest 0,
          ← List.map_reverse, ← descPairs]
      rw [h1, removeMovePhase_shift c (descPairs P rest) rest acc,
        removeMovePhase_descPairs P rest acc]
      simp [List.filter_cons, hc]

theorem take_len_succ_append {α : Type} :
    ∀ (A : List α) (c : α) (B : List α), (A ++ c :: B).take (A.length + 1) = A ++ [c]
  | [], c, B => rfl
  | x :: A, c, B => by
    rw [List.cons_append, List.length_cons, List.take_succ_cons, take_len_succ_append A c B]
    rfl

theorem drop_len_succ_append {α : Type} :
    ∀ (A : List α) (c : α) (B : List α), (A ++ c :: B).drop (A.length + 1) = B
  | [], c, B => rfl
  | x :: A, c, B => by
    rw [List.cons_append, List.length_cons, List.drop_succ_cons, drop_len_succ_append A c B]

theorem listInsertAt_take_drop {α : Type} (c : α) :
    ∀ (k : ℕ) (l : List α), k ≤ l.length →
      listInsertAt k c l = l.take k ++ c :: l.drop k
  | 0, l, _ => rfl
  | k + 1, [], h => absurd h (Nat.not_succ_le_zero k)
  | k + 1, x :: l, h => by
    rw [listInsertAt, listInsertAt_take_drop c k l (Nat.le_of_succ_le_succ h)]
    rfl

theorem insertMovePhase_take_drop :
    ∀ (moved : List Cue) (k : ℕ) (cues : List Cue), k ≤ cues.length →
      insertMovePhase moved k cues = cues.take k ++ moved ++ cues.drop k
  | [], k, cues, _ => by
    rw [insertMovePhase, List.append_nil, List.take_append_drop]
  | c :: rest, k, cues, h => by
    have hlen : (cues.take k).length = k := by
      rw [List.length_take]
      omega
    have h1 := take_len_succ_append (cues.take k) c (cues.drop k)
    have h2 := drop_len_succ_append (cues.take k) c (cues.drop k)
    rw [hlen] at h1 h2
    rw [insertMovePhase, listInsertAt_take_drop c k cues h,
      insertMovePhase_take_drop rest (k + 1) (cues.take k ++ c :: cues.drop k)
        (by rw [List.length_append, hlen, List.length_cons]; omega),
      h1, h2]
    simp [List.append_assoc]

theorem filter_lt_zero_nil :
    ∀ l : List (Cue × ℕ), l.filter (fun p => decide (p.2 < 0)) = []
  | [] => rfl
  | q :: rest => by
    rw [List.filter_cons]
    simp [filter_lt_zero_nil rest]

theorem filter_shift_length (n : ℕ) :
    ∀ l : List (Cue × ℕ),
      ((l.map (fun p => (p.1, p.2 + 1))).filter (fun p => decide (p.2 < n + 1))).length
        = (l.filter (fun p => decide (p.2 < n))).length
  | [] => rfl
  | q :: rest => by
    rw [List.map_cons, List.filter_cons, List.filter_cons]
    dsimp only
    rw [decide_eq_decide.mpr Nat.succ_lt_succ_iff]
    by_cases h : decide (q.2 < n) = true
    · rw [if_pos h, if_pos h, List.length_cons, List.length_cons, filter_shift_length n rest]
    · rw [if_neg h, if_neg h, filter_shift_length n rest]

theorem ascPairs_count (P : Cue → Bool) :
    ∀ (l : List Cue) (n : ℕ),
      ((ascPairs P l 0).filter (fun p => decide (p.2 < n))).length
        = ((l.take n).filter P).length
  | [], n => by simp [ascPairs]
  | c :: rest, n => by
    cases n with
    | zero =>
      rw [filter_lt_zero_nil]
      rfl
    | succ n =>
      rw [ascPairs, ascPairs_shift P rest 0, List.take_succ_cons, List.filter_cons]
      by_cases hc : P c = true
      · rw [if_pos hc, List.filter_cons]
        dsimp only
        rw [decide_eq_true (Nat.succ_pos n), if_pos rfl, if_pos hc, List.length_cons,
          List.length_cons, filter_shift_length n (ascPairs P rest 0),
          ascPairs_count P rest n]
      · rw [if_neg hc, if_neg hc, filter_shift_length n (ascPairs P rest 0),
          ascPairs_count P rest n]

/-- Claim C6: `moveCues` rejects an empty id list or an out-of-range target
index without modifying anything, and likewise fails when no id resolves;
for a duplicate-free id list over a duplicate-free cue list it relocates
exactly the named cues as one contiguous block, in their original relative
order, at the target index interpreted in the list after removal of the
moved set (the target is decremented once per moved cue originally before
the unadjusted target); in particular `moveCues(["a"], 0)` on `[a, b, c]`
succeeds and leaves the order unchanged. -/
theorem moveCues_relocates_block :
    (∀ (m : CueManager) (cueIds : List String) (newIndex : ℤ),
        (cueIds = [] ∨ newIndex < 0 ∨ (m.cues.length : ℤ) < newIndex →
          CueManager.moveCues cueIds newIndex m = (false, m, []))
      ∧ ((∀ c ∈ m.cues, c.id ∉ cueIds) →
          CueManager.moveCues cueIds newIndex m = (false, m, []))
      ∧ (cueIds ≠ [] → 0 ≤ newIndex → newIndex ≤ (m.cues.length : ℤ) →
          cueIds.Nodup → (m.cues.map Cue.id).Nodup →
          (∃ c ∈ m.cues, c.id ∈ cueIds) →
            (CueManager.moveCues cueIds newIndex m).1 = true
          ∧ (CueManager.moveCues cueIds newIndex m).2.1.cues
              = (m.cues.filter (fun c => c.id ∉ cueIds)).take
                  (newIndex.toNat
                    - ((m.cues.take newIndex.toNat).filter
                        (fun c => c.id ∈ cueIds)).length)
                ++ m.cues.filter (fun c => c.id ∈ cueIds)
                ++ (m.cues.filter (fun c => c.id ∉ cueIds)).drop
                    (newIndex.toNat
                      - ((m.cues.take newIndex.toNat).filter
                          (fun c => c.id ∈ cueIds)).length)))
    ∧ (CueManager.moveCues ["a"] 0 threeMgr).1 = true
    ∧ (CueManager.moveCues ["a"] 0 threeMgr).2.1.cues.map Cue.id = ["a", "b", "c"] := by
  refine ⟨fun m cueIds newIndex => ⟨?_, ?_, ?_⟩, ?_, ?_⟩
  · intro h
    have hcond : cueIds.isEmpty = true ∨ newIndex < 0 ∨ newIndex > (m.cues.length : ℤ) := by
      rcases h with h | h | h
      · exact Or.inl (List.isEmpty_iff.mpr h)
      · exact Or.inr (Or.inl h)
      · exact Or.inr (Or.inr h)
    simp only [CueManager.moveCues]
    rw [if_pos hcond]
  · intro h
    by_cases hemp : cueIds.isEmpty = true ∨ newIndex < 0 ∨ newIndex > (m.cues.length : ℤ)
    · simp only [CueManager.moveCues]
      rw [if_pos hemp]
    · have hnone : collectPairs m.cues cueIds = [] := collectPairs_eq_nil m.cues cueIds h
      simp only [CueManager.moveCues]
      rw [if_neg hemp, hnone]
      rfl
  · intro hne h0 hub hidnd hcnd hfound
    have hguard : ¬ (cueIds.isEmpty = true ∨ newIndex < 0 ∨ newIndex > (m.cues.length : ℤ)) := by
      push_neg
      exact ⟨fun he => hne (List.isEmpty_iff.mp he), h0, hub⟩
    have hnemp : ¬ ((collectPairs m.cues cueIds).isEmpty = true) := by
      rcases hfound with ⟨c, hc, hcid⟩
      rcases List.mem_iff_get?.mp hc with ⟨i, hi⟩
      intro he
      have hmem : (c, i) ∈ collectPairs m.cues cueIds :=
        (collectPairs_mem m.cues cueIds (c, i)).mpr
          ⟨c.id, hcid, get_findPairIn m.cues hcnd c i hi⟩
      rw [List.isEmpty_iff.mp he] at hmem
      exact absurd hmem (List.not_mem_nil _)
    have hsort := sortPairsDesc_collect_eq_descPairs m.cues cueIds hcnd hidnd
    have hcnt : ((descPairs (fun c => decide (c.id ∈ cueIds)) m.cues).filter
          (fun p => decide ((p.2 : ℤ) < newIndex))).length
        = ((m.cues.take newIndex.toNat).filter (fun c => decide (c.id ∈ cueIds))).length := by
      have e1 : (descPairs (fun c => decide (c.id ∈ cueIds)) m.cues).filter
            (fun p => decide ((p.2 : ℤ) < newIndex))
          = (descPairs (fun c => decide (c.id ∈ cueIds)) m.cues).filter
            (fun p => decide (p.2 < newIndex.toNat)) :=
        List.filter_congr (fun x hx => decide_eq_decide.mpr (by omega))
      rw [e1, descPairs,
        ((List.reverse_perm (ascPairs (fun c => decide (c.id ∈ cueIds)) m.cues 0)).filter
          (fun p => decide (p.2 < newIndex.toNat))).length_eq,
        ascPairs_count (fun c => decide (c.id ∈ cueIds)) m.cues newIndex.toNat]
    have hcle : ((m.cues.take newIndex.toNat).filter
          (fun c => decide (c.id ∈ cueIds))).length ≤ newIndex.toNat := by
      have ha := List.length_filter_le (fun c => decide (c.id ∈ cueIds))
        (m.cues.take newIndex.toNat)
      have hb : (m.cues.take newIndex.toNat).length ≤ newIndex.toNat := by
        rw [List.length_take]
        omega
      omega
    have hsplit : ((m.cues.take newIndex.toNat).filter
            (fun c => decide (c.id ∈ cueIds))).length
          + ((m.cues.drop newIndex.toNat).filter
            (fun c => decide (c.id ∈ cueIds))).length
        = (m.cues.filter (fun c => decide (c.id ∈ cueIds))).length := by
      conv_rhs => rw [← List.take_append_drop newIndex.toNat m.cues]
      rw [List.filter_append, List.length_append]
    have hPnot : (m.cues.filter (fun c => decide (c.id ∈ cueIds))).length
          + (m.cues.filter (fun c => !(decide (c.id ∈ cueIds)))).length
        = m.cues.length := by
      have hh := (List.filter_append_perm (fun c => decide (c.id ∈ cueIds)) m.cues).length_eq
      rw [List.length_append] at hh
      exact hh
    have hdropfl : ((m.cues.drop newIndex.toNat).filter
          (fun c => decide (c.id ∈ cueIds))).length
        ≤ m.cues.length - newIndex.toNat := by
      have hd := List.length_filter_le (fun c => decide (c.id ∈ cueIds))
        (m.cues.drop newIndex.toNat)
      rw [List.length_drop] at hd
      exact hd
    have hfits : newIndex.toNat
          - ((m.cues.take newIndex.toNat).filter (fun c => decide (c.id ∈ cueIds))).length
        ≤ (m.cues.filter (fun c => !(decide (c.id ∈ cueIds)))).length := by
      have hlenle : newIndex.toNat ≤ m.cues.length := by omega
      omega
    have htn : (newIndex - (((m.cues.take newIndex.toNat).filter
            (fun c => decide (c.id ∈ cueIds))).length : ℤ)).toNat
        = newIndex.toNat
          - ((m.cues.take newIndex.toNat).filter (fun c => decide (c.id ∈ cueIds))).length := by
      omega
    have hkept : m.cues.filter (fun c => !(decide (c.id ∈ cueIds)))
        = m.cues.filter (fun c => c.id ∉ cueIds) :=
      List.filter_congr (fun x hx => decide_not.symm)
    constructor
    · simp only [CueManager.moveCues]
      rw [if_neg hguard, if_neg hnemp]
    · simp only [CueManager.moveCues]
      rw [if_neg hguard, if_neg hnemp]
      dsimp only
      rw [markWorkspaceModified_cues]
      dsimp only
      rw [hsort, removeMovePhase_descPairs (fun c => decide (c.id ∈ cueIds)) m.cues []]
      dsimp only
      rw [List.append_nil, hcnt, htn,
        insertMovePhase_take_drop (m.cues.filter (fun c => decide (c.id ∈ cueIds)))
          (newIndex.toNat - ((m.cues.take newIndex.toNat).filter
            (fun c => decide (c.id ∈ cueIds))).length)
          (m.cues.filter (fun c => !(decide (c.id ∈ cueIds)))) hfits,
        hkept]
  · decide
  · decide

/-- Counterexample to the universal relocation property of claim C6: with
the duplicate id list `["a", "a"]` on `[a, b, c]`, `moveCues` resolves the
same pair twice, erases index 0 twice, and so destroys cue `b` while
duplicating `a`: the call succeeds and yields `[a, a, c]`, which is not a
relocation of the found cue set `{a}` within the original list. -/
theorem moveCues_duplicate_ids_lose_cues :
    (CueManager.moveCues ["a", "a"] 0 threeMgr).1 = true
    ∧ (CueManager.moveCues ["a", "a"] 0 threeMgr).2.1.cues.map Cue.id = ["a", "a", "c"]
    ∧ threeMgr.cues.map Cue.id = ["a", "b", "c"] := by
  refine ⟨?_, ?_, ?_⟩ <;> decide

end CueForge
